import Mathlib

/-!
Verification of the board-state engine of a single-file Minesweeper game
(`src/main.py`).  The grid is a rectangular array of tile records indexed as
`grid[y][x]`; we embed it as a total function `Nat → Nat → Tile` together with
the configured `width` and `height`.  The two source loops that are genuine
while-loops (`Board.place_mines` and the worklist loop of `Board.reveal_tile`)
are embedded fuel-indexed, so that every definition is executable; for the
reveal loop a fuel of `9 * width * height + 1` is proved sufficient inside the
completeness lemmas (each iteration pops one entry, and an entry is pushed at
most eight times per newly revealed cell).
-/

/-- One cell of the grid, mirror of the tile dictionary built in
`Board.create_board` (src/main.py lines 86-92). -/
structure Tile where
  is_mine : Bool
  is_revealed : Bool
  is_flagged : Bool
  neighbor_mines : Nat
deriving DecidableEq

/-- The initial tile record of `create_board`. -/
def defaultTile : Tile := ⟨false, false, false, 0⟩

/-- Copy of a tile with `is_revealed` set, the one-field dictionary write of the source. -/
def revealTile1 (t : Tile) : Tile := ⟨t.is_mine, true, t.is_flagged, t.neighbor_mines⟩

/-- Copy of a tile with `is_mine` set, the one-field dictionary write of the source. -/
def mineTile1 (t : Tile) : Tile := ⟨true, t.is_revealed, t.is_flagged, t.neighbor_mines⟩

/-- Copy of a tile with `is_flagged` negated, the one-field dictionary write of the source. -/
def flagToggleTile1 (t : Tile) : Tile := ⟨t.is_mine, t.is_revealed, !t.is_flagged, t.neighbor_mines⟩

/-- Copy of a tile with `neighbor_mines` overwritten, the one-field dictionary write of the source. -/
def withCountTile1 (t : Tile) (n : Nat) : Tile := ⟨t.is_mine, t.is_revealed, t.is_flagged, n⟩

/-- The board: configured dimensions plus the grid, accessed `grid y x`
exactly like `self.grid[y][x]` in the source. -/
structure Board where
  width : Nat
  height : Nat
  grid : Nat → Nat → Tile

/-- `Board.create_board` (lines 84-92): a `height × width` grid of fresh
tiles. -/
def create_board (w h : Nat) : Board := ⟨w, h, fun _ _ => defaultTile⟩

/-- Write tile `t` at column `x`, row `y` (pointwise functional update of
`self.grid[y][x]`). -/
def setTile (b : Board) (x y : Nat) (t : Tile) : Board :=
  { b with grid := fun y' x' =>
      if y' = y then (if x' = x then t else b.grid y' x') else b.grid y' x' }

/-- The nine `(i, j)` offsets enumerated by the nested
`for i in range(-1, 2): for j in range(-1, 2)` loops of
`calculate_neighbor_mines` (lines 110-111); the center offset is included,
exactly as in the source. -/
def offsets9 : List (Int × Int) :=
  [(-1, -1), (-1, 0), (-1, 1), (0, -1), (0, 0), (0, 1), (1, -1), (1, 0), (1, 1)]

/-- The eight `(i, j)` offsets enumerated by the cascade loops of
`reveal_tile` (lines 140-143), which skip `i == 0 and j == 0`. -/
def offsets8 : List (Int × Int) :=
  [(-1, -1), (-1, 0), (-1, 1), (0, -1), (0, 1), (1, -1), (1, 0), (1, 1)]

/-- The inner counting loop of `calculate_neighbor_mines` (lines 109-116):
the number of in-bounds mine cells at offsets `offsets9` around `(x, y)`.
The center cell is inspected too, as in the source; callers only use this on
non-mine cells, where the center contributes nothing. -/
def countAdjacentMines (b : Board) (x y : Nat) : Nat :=
  offsets9.foldl (fun count ij =>
    let ny : Int := (y : Int) + ij.1
    let nx : Int := (x : Int) + ij.2
    if 0 ≤ ny ∧ ny < (b.height : Int) ∧ 0 ≤ nx ∧ nx < (b.width : Int) ∧
        (b.grid ny.toNat nx.toNat).is_mine = true
    then count + 1 else count) 0

/-- The row-major traversal order of the two outer loops of
`calculate_neighbor_mines` (lines 106-107): pairs `(y, x)`. -/
def allCells (b : Board) : List (Nat × Nat) :=
  (List.range b.height).product (List.range b.width)

/-- One iteration of the cell loop of `calculate_neighbor_mines`
(lines 108-117): skip mine cells, otherwise store the adjacent-mine count of
the cell `yx = (y, x)`. -/
def calcStep (acc : Board) (yx : Nat × Nat) : Board :=
  if (acc.grid yx.1 yx.2).is_mine = true then acc
  else setTile acc yx.2 yx.1
    (withCountTile1 (acc.grid yx.1 yx.2) (countAdjacentMines acc yx.2 yx.1))

/-- `Board.calculate_neighbor_mines` (lines 104-117): for every non-mine cell
in row-major order, store the count of adjacent mines.  The pass reads only
the `is_mine` fields, which it never writes, so the sequential fold is used
exactly as in the source. -/
def calculate_neighbor_mines (b : Board) : Board :=
  (allCells b).foldl calcStep b

/-- The neighbor-push loop of `reveal_tile` (lines 139-148): for each of the
eight offsets, if the neighbor is in bounds (column checked first, as in
lines 145-146) and not yet revealed, push it on the stack.  Pushing conses to
the front, which matches appending to the end of a Python list that is popped
from the end. -/
def pushNeighbors (b : Board) (x y : Nat) (stack : List (Nat × Nat)) : List (Nat × Nat) :=
  offsets8.foldl (fun st ij =>
    let ny : Int := (y : Int) + ij.1
    let nx : Int := (x : Int) + ij.2
    if 0 ≤ nx ∧ nx < (b.width : Int) ∧ 0 ≤ ny ∧ ny < (b.height : Int) ∧
        (b.grid ny.toNat nx.toNat).is_revealed = false
    then (nx.toNat, ny.toNat) :: st else st) stack

/-- The `while stack:` worklist loop of `reveal_tile` (lines 125-148),
fuel-indexed.  Stack entries are `(x, y)` pairs; every entry is bounds-checked
before being pushed.  When the fuel runs out with a nonempty stack the current
board is returned; the fuel used by `reveal_tile` is proved large enough that
this never happens. -/
def revealLoop : Nat → Board → List (Nat × Nat) → Board
  | _, b, [] => b
  | 0, b, _ :: _ => b
  | fuel + 1, b, (x, y) :: rest =>
    let tile := b.grid y x
    if tile.is_revealed = true ∨ tile.is_flagged = true then revealLoop fuel b rest
    else
      let b' := setTile b x y (revealTile1 tile)
      if tile.is_mine = true then revealLoop fuel b' rest
      else if tile.neighbor_mines = 0 then revealLoop fuel b' (pushNeighbors b' x y rest)
      else revealLoop fuel b' rest

/-- Fuel that always suffices for the reveal worklist: one initial entry plus
at most eight pushes for each of the at most `width * height` cells that can
be newly revealed. -/
def revealFuel (b : Board) : Nat := 9 * (b.width * b.height) + 1

/-- `Board.reveal_tile` (lines 119-148): bounds-guarded entry into the
worklist loop, started with the single target cell. -/
def reveal_tile (b : Board) (x y : Int) : Board :=
  if 0 ≤ x ∧ x < (b.width : Int) ∧ 0 ≤ y ∧ y < (b.height : Int) then
    revealLoop (revealFuel b) b [(x.toNat, y.toNat)]
  else b

/-- `Board.reveal_all_mines` (lines 150-155): every in-bounds mine tile
becomes revealed; each iteration of the source loop touches only its own
tile, so the per-cell update is exact. -/
def reveal_all_mines (b : Board) : Board :=
  { b with grid := fun y x =>
      let t := b.grid y x
      if y < b.height ∧ x < b.width ∧ t.is_mine = true then revealTile1 t
      else t }

/-- `Board.toggle_flag` (lines 157-164): in bounds and not revealed, flip the
flag.  The boolean success result of the source is not modeled; no caller in
the game logic uses it. -/
def toggle_flag (b : Board) (x y : Int) : Board :=
  if 0 ≤ x ∧ x < (b.width : Int) ∧ 0 ≤ y ∧ y < (b.height : Int) then
    if (b.grid y.toNat x.toNat).is_revealed = true then b
    else setTile b x.toNat y.toNat (flagToggleTile1 (b.grid y.toNat x.toNat))
  else b

/-- `Board.check_victory` (lines 166-173): true unless some in-bounds cell is
neither a mine nor revealed (the source returns `False` at the first such
cell and `True` after the full scan). -/
def check_victory (b : Board) : Bool :=
  (List.range b.height).all fun y => (List.range b.width).all fun x =>
    (b.grid y x).is_mine || (b.grid y x).is_revealed

/-- The `while mines_placed < num_mines` loop of `Board.place_mines`
(lines 94-102), fuel-indexed.  `rand n` is the pair returned by the two
`random.randint` calls of the n-th iteration (so each component ranges over
the grid when the stream is in bounds); `none` means the loop has not
terminated within `fuel` samples. -/
def place_mines_loop (num : Nat) (first : Nat × Nat) (rand : Nat → Nat × Nat) :
    Nat → Board → Nat → Nat → Option Board
  | 0, b, placed, _ => if num ≤ placed then some b else none
  | fuel + 1, b, placed, idx =>
    if num ≤ placed then some b
    else
      let xy := rand idx
      if xy ≠ first ∧ (b.grid xy.2 xy.1).is_mine = false then
        place_mines_loop num first rand fuel
          (setTile b xy.1 xy.2 (mineTile1 (b.grid xy.2 xy.1)))
          (placed + 1) (idx + 1)
      else place_mines_loop num first rand fuel b placed (idx + 1)

/-- `Board.place_mines` (lines 94-102) started from zero mines placed at the
head of the sample stream. -/
def place_mines (b : Board) (num : Nat) (first : Nat × Nat)
    (rand : Nat → Nat × Nat) (fuel : Nat) : Option Board :=
  place_mines_loop num first rand fuel b 0 0

/-- `place_mines` terminates on the given board and sample stream: some
finite number of samples suffices for the while-loop to finish. -/
def PlaceMinesTerminates (b : Board) (num : Nat) (first : Nat × Nat)
    (rand : Nat → Nat × Nat) : Prop :=
  ∃ fuel, (place_mines b num first rand fuel).isSome

/-- Number of in-bounds mine cells. -/
def countMines (b : Board) : Nat :=
  (((Finset.range b.height) ×ˢ (Finset.range b.width)).filter
    (fun yx => (b.grid yx.1 yx.2).is_mine = true)).card

/-- Number of in-bounds cells not yet revealed (the quantity that strictly
decreases whenever the reveal worklist reveals a cell). -/
def unrevealedCount (b : Board) : Nat :=
  (((Finset.range b.height) ×ˢ (Finset.range b.width)).filter
    (fun yx => (b.grid yx.1 yx.2).is_revealed = false)).card

/-- The neighbor counts stored on the board agree with the mine layout: every
in-bounds non-mine cell carries the exact count of adjacent mines.  (Per the
data model, `neighbor_mines` is only meaningful on non-mine cells.) -/
def Consistent (b : Board) : Prop :=
  ∀ y, y < b.height → ∀ x, x < b.width → (b.grid y x).is_mine = false →
    (b.grid y x).neighbor_mines = countAdjacentMines b x y

instance (b : Board) : Decidable (Consistent b) := by
  unfold Consistent; infer_instance

-- --- Game configuration and session (src/main.py lines 50-74, 431-464, 533-598) ---

/-- The difficulty enum (lines 14-17). -/
inductive Difficulty where
  | EASY
  | NORMAL
  | HARD
deriving DecidableEq

/-- The `size` column of `GameConfig.DIFFICULTY_SETTINGS` (lines 51-55),
as `(grid_width, grid_height)`. -/
def difficulty_size : Difficulty → Nat × Nat
  | .EASY => (12, 9)
  | .NORMAL => (18, 14)
  | .HARD => (32, 18)

/-- The `mines` column of `GameConfig.DIFFICULTY_SETTINGS` (lines 51-55). -/
def difficulty_mines : Difficulty → Nat
  | .EASY => 10
  | .NORMAL => 40
  | .HARD => 99

/-- The session-relevant fields of `GameConfig` (lines 57-64); the screen
dimensions are pixel layout and out of core scope. -/
structure GameConfig where
  grid_width : Nat
  grid_height : Nat
  num_mines : Nat

/-- `GameConfig.__init__` / `update_settings` (lines 57-64): a configuration
is only ever built from one of the three table entries; there is no
constructor taking free-form width, height or mine count. -/
def GameConfig.ofDifficulty (d : Difficulty) : GameConfig :=
  ⟨(difficulty_size d).1, (difficulty_size d).2, difficulty_mines d⟩

/-- The board-logic fields of `GameState` (lines 431-438); `start_time` is
wall-clock display state, out of core scope. -/
structure GameState where
  board : Board
  first_click : Bool
  game_over : Bool
  game_won : Bool

/-- A fresh session over a configuration (lines 432-438). -/
def newGameState (c : GameConfig) : GameState :=
  ⟨create_board c.grid_width c.grid_height, true, false, false⟩

/-- `GameState.handle_first_click` (lines 448-454): on the first reveal, arm
the board and compute neighbor counts.  `arm b (x, y)` stands for
`place_mines` with one resolved outcome of its random sampling; the concrete
instantiations below run `place_mines` on an explicit sample stream. -/
def handle_first_click (arm : Board → Nat × Nat → Board) (s : GameState) (x y : Nat) :
    GameState :=
  if s.first_click = true then
    { s with board := calculate_neighbor_mines (arm s.board (x, y)),
             first_click := false }
  else s

/-- The left-click game-board branch of `Game.handle_game_events`
(lines 551-566), taking the already-converted board coordinates: ignored in a
terminal state or out of bounds; otherwise first-click arming, then the
reveal, then the loss check on the clicked tile. -/
def applyReveal (arm : Board → Nat × Nat → Board) (s : GameState) (x y : Int) :
    GameState :=
  if s.game_over = false ∧ s.game_won = false then
    if 0 ≤ x ∧ x < (s.board.width : Int) ∧ 0 ≤ y ∧ y < (s.board.height : Int) then
      let s1 := handle_first_click arm s x.toNat y.toNat
      let b1 := reveal_tile s1.board x y
      let t := b1.grid y.toNat x.toNat
      if t.is_mine = true ∧ t.is_flagged = false then
        { s1 with board := reveal_all_mines b1, game_over := true }
      else { s1 with board := b1 }
    else s
  else s

/-- The right-click game-board branch of `Game.handle_game_events`
(lines 551-557, 568-569): ignored in a terminal state or out of bounds;
otherwise toggle the flag. -/
def applyFlag (s : GameState) (x y : Int) : GameState :=
  if s.game_over = false ∧ s.game_won = false then
    if 0 ≤ x ∧ x < (s.board.width : Int) ∧ 0 ≤ y ∧ y < (s.board.height : Int) then
      { s with board := toggle_flag s.board x y }
    else s
  else s

/-- `Game.update` (lines 591-598): once armed and not in a terminal state,
the session becomes won exactly when `check_victory` holds. -/
def updateStep (s : GameState) : GameState :=
  if s.game_over = false ∧ s.first_click = false ∧ s.game_won = false then
    if check_victory s.board = true then { s with game_won := true } else s
  else s

-- --- Basic lemmas about tiles and single-cell updates ---

theorem setTile_grid (b : Board) (x y : Nat) (t : Tile) (y' x' : Nat) :
    (setTile b x y t).grid y' x' =
      if y' = y then (if x' = x then t else b.grid y' x') else b.grid y' x' := rfl

theorem setTile_width (b : Board) (x y : Nat) (t : Tile) :
    (setTile b x y t).width = b.width := rfl

theorem setTile_height (b : Board) (x y : Nat) (t : Tile) :
    (setTile b x y t).height = b.height := rfl

theorem setTile_grid_same (b : Board) (x y : Nat) (t : Tile) :
    (setTile b x y t).grid y x = t := by
  simp [setTile_grid]

theorem setTile_grid_other (b : Board) (x y : Nat) (t : Tile) (y' x' : Nat)
    (h : ¬(y' = y ∧ x' = x)) : (setTile b x y t).grid y' x' = b.grid y' x' := by
  rw [setTile_grid]
  by_cases hy : y' = y
  · subst hy
    have hx : ¬x' = x := fun hx => h ⟨rfl, hx⟩
    simp [hx]
  · simp [hy]

-- --- Generic foldl helpers for the neighbor-push and counting loops ---

theorem foldl_subset {α β : Type} (f : List α → β → List α)
    (hmono : ∀ st e, st ⊆ f st e) :
    ∀ (l : List β) (st : List α), st ⊆ l.foldl f st := by
  intro l
  induction l with
  | nil => intro st; exact fun a h => h
  | cons e tl ih =>
    intro st
    exact fun a h => ih (f st e) (hmono st e h)

theorem foldl_mem_of_mem {α β : Type} (f : List α → β → List α)
    (hmono : ∀ st e, st ⊆ f st e) (a : α) (e : β)
    (hadd : ∀ st, a ∈ f st e) :
    ∀ (l : List β) (st : List α), e ∈ l → a ∈ l.foldl f st := by
  intro l
  induction l with
  | nil => intro st h; cases h
  | cons e' tl ih =>
    intro st h
    rcases List.mem_cons.mp h with h | h
    · subst h
      exact foldl_subset f hmono tl (f st e) (hadd st)
    · exact ih (f st e') h

theorem foldl_mem_inv {α β : Type} (f : List α → β → List α)
    (Q : α → Prop) (hstep : ∀ st e a, a ∈ f st e → a ∈ st ∨ Q a) :
    ∀ (l : List β) (st : List α) (a : α), a ∈ l.foldl f st → a ∈ st ∨ Q a := by
  intro l
  induction l with
  | nil => intro st a h; exact Or.inl h
  | cons e tl ih =>
    intro st a h
    rcases ih (f st e) a h with h' | h'
    · exact hstep st e a h'
    · exact Or.inr h'

theorem foldl_length_le {α β : Type} (f : List α → β → List α)
    (hstep : ∀ st e, (f st e).length ≤ st.length + 1) :
    ∀ (l : List β) (st : List α), (l.foldl f st).length ≤ st.length + l.length := by
  intro l
  induction l with
  | nil => intro st; simp
  | cons e tl ih =>
    intro st
    calc (List.foldl f (f st e) tl).length ≤ (f st e).length + tl.length := ih (f st e)
      _ ≤ st.length + 1 + tl.length := by have := hstep st e; omega
      _ = st.length + (e :: tl).length := by simp; omega

theorem foldl_count_eq_zero {α : Type} (p : α → Prop) [DecidablePred p] :
    ∀ (l : List α) (acc : Nat),
      l.foldl (fun c e => if p e then c + 1 else c) acc = 0 ↔
        acc = 0 ∧ ∀ e ∈ l, ¬p e := by
  intro l
  induction l with
  | nil => intro acc; simp
  | cons e tl ih =>
    intro acc
    by_cases he : p e
    · simp only [List.foldl_cons, if_pos he, ih]
      constructor
      · rintro ⟨h, -⟩; omega
      · rintro ⟨-, h⟩; exact absurd he (h e (List.mem_cons_self e tl))
    · simp only [List.foldl_cons, if_neg he, ih]
      constructor
      · rintro ⟨h1, h2⟩
        refine ⟨h1, fun e' he' => ?_⟩
        rcases List.mem_cons.mp he' with h | h
        · subst h; exact he
        · exact h2 e' h
      · rintro ⟨h1, h2⟩
        exact ⟨h1, fun e' he' => h2 e' (List.mem_cons_of_mem e he')⟩

-- --- C7: configuration validity ---

/-- C7: a game session can only be constructed from one of the three fixed
difficulty profiles (the configuration constructor takes a `Difficulty`, not
free-form numbers), and every profile has positive dimensions and fewer mines
than cells; hence no session with `mine_count >= width*height` or
non-positive dimensions is ever produced. -/
theorem C7_config_always_valid :
    ∀ d : Difficulty,
      0 < (GameConfig.ofDifficulty d).grid_width ∧
      0 < (GameConfig.ofDifficulty d).grid_height ∧
      (GameConfig.ofDifficulty d).num_mines <
        (GameConfig.ofDifficulty d).grid_width * (GameConfig.ofDifficulty d).grid_height := by
  intro d
  cases d <;> decide

/-- Concrete instantiation of `C7_config_always_valid` at the EASY profile. -/
theorem C7_config_always_valid_witness :
    0 < (GameConfig.ofDifficulty Difficulty.EASY).grid_width ∧
    0 < (GameConfig.ofDifficulty Difficulty.EASY).grid_height ∧
    (GameConfig.ofDifficulty Difficulty.EASY).num_mines <
      (GameConfig.ofDifficulty Difficulty.EASY).grid_width *
        (GameConfig.ofDifficulty Difficulty.EASY).grid_height :=
  C7_config_always_valid Difficulty.EASY

-- --- C8: terminal states are absorbing for reveal and flag actions ---

/-- C8: once `game_over` or `game_won` holds, a reveal or flag action at any
coordinates returns the session completely unchanged (the guard at line 552
of the source precedes every board access), so every tile field and the
outcome are untouched. -/
theorem C8_terminal_noop :
    ∀ (arm : Board → Nat × Nat → Board) (s : GameState) (x y : Int),
      s.game_over = true ∨ s.game_won = true →
      applyReveal arm s x y = s ∧ applyFlag s x y = s := by
  intro arm s x y h
  unfold applyReveal applyFlag
  rcases h with h | h <;> simp [h]

/-- Concrete instantiation of `C8_terminal_noop` on a lost 2×2 session. -/
theorem C8_terminal_noop_witness :
    ((⟨create_board 2 2, false, true, false⟩ : GameState).game_over = true ∨
      (⟨create_board 2 2, false, true, false⟩ : GameState).game_won = true) ∧
    (applyReveal (fun b _ => b) ⟨create_board 2 2, false, true, false⟩ 0 0 =
        ⟨create_board 2 2, false, true, false⟩ ∧
      applyFlag ⟨create_board 2 2, false, true, false⟩ 0 0 =
        ⟨create_board 2 2, false, true, false⟩) :=
  ⟨Or.inl rfl, C8_terminal_noop (fun b _ => b) ⟨create_board 2 2, false, true, false⟩ 0 0 (Or.inl rfl)⟩

-- --- Frame and monotonicity lemmas for the reveal worklist loop ---

theorem setTile_preserve (b : Board) (x y : Nat) (t : Tile)
    (hm : t.is_mine = (b.grid y x).is_mine)
    (hf : t.is_flagged = (b.grid y x).is_flagged)
    (hn : t.neighbor_mines = (b.grid y x).neighbor_mines) (y' x' : Nat) :
    ((setTile b x y t).grid y' x').is_mine = (b.grid y' x').is_mine ∧
    ((setTile b x y t).grid y' x').is_flagged = (b.grid y' x').is_flagged ∧
    ((setTile b x y t).grid y' x').neighbor_mines = (b.grid y' x').neighbor_mines := by
  rw [setTile_grid]
  by_cases h1 : y' = y
  · subst h1
    by_cases h2 : x' = x
    · subst h2; simp [hm, hf, hn]
    · simp [h2]
  · simp [h1]

/-- The worklist loop never changes the dimensions nor any `is_mine`,
`is_flagged` or `neighbor_mines` field: it only flips `is_revealed` bits. -/
theorem revealLoop_frame (fuel : Nat) :
    ∀ (b : Board) (stack : List (Nat × Nat)),
      (revealLoop fuel b stack).width = b.width ∧
      (revealLoop fuel b stack).height = b.height ∧
      ∀ y x,
        ((revealLoop fuel b stack).grid y x).is_mine = (b.grid y x).is_mine ∧
        ((revealLoop fuel b stack).grid y x).is_flagged = (b.grid y x).is_flagged ∧
        ((revealLoop fuel b stack).grid y x).neighbor_mines = (b.grid y x).neighbor_mines := by
  induction fuel with
  | zero =>
    intro b stack
    cases stack with
    | nil => exact ⟨rfl, rfl, fun y x => ⟨rfl, rfl, rfl⟩⟩
    | cons p rest => exact ⟨rfl, rfl, fun y x => ⟨rfl, rfl, rfl⟩⟩
  | succ fuel ih =>
    intro b stack
    cases stack with
    | nil => exact ⟨rfl, rfl, fun y x => ⟨rfl, rfl, rfl⟩⟩
    | cons p rest =>
      obtain ⟨px, py⟩ := p
      simp only [revealLoop]
      split
      · exact ih b rest
      · split
        · obtain ⟨hw, hh, hg⟩ := ih (setTile b px py (revealTile1 (b.grid py px))) rest
          refine ⟨by rw [hw, setTile_width], by rw [hh, setTile_height], fun y x => ?_⟩
          obtain ⟨h1, h2, h3⟩ := hg y x
          obtain ⟨g1, g2, g3⟩ := setTile_preserve b px py (revealTile1 (b.grid py px)) rfl rfl rfl y x
          exact ⟨by rw [h1, g1], by rw [h2, g2], by rw [h3, g3]⟩
        · split
          · obtain ⟨hw, hh, hg⟩ := ih (setTile b px py (revealTile1 (b.grid py px)))
              (pushNeighbors (setTile b px py (revealTile1 (b.grid py px))) px py rest)
            refine ⟨by rw [hw, setTile_width], by rw [hh, setTile_height], fun y x => ?_⟩
            obtain ⟨h1, h2, h3⟩ := hg y x
            obtain ⟨g1, g2, g3⟩ := setTile_preserve b px py (revealTile1 (b.grid py px)) rfl rfl rfl y x
            exact ⟨by rw [h1, g1], by rw [h2, g2], by rw [h3, g3]⟩
          · obtain ⟨hw, hh, hg⟩ := ih (setTile b px py (revealTile1 (b.grid py px))) rest
            refine ⟨by rw [hw, setTile_width], by rw [hh, setTile_height], fun y x => ?_⟩
            obtain ⟨h1, h2, h3⟩ := hg y x
            obtain ⟨g1, g2, g3⟩ := setTile_preserve b px py (revealTile1 (b.grid py px)) rfl rfl rfl y x
            exact ⟨by rw [h1, g1], by rw [h2, g2], by rw [h3, g3]⟩

theorem setTile_reveal_mono (b : Board) (x y y' x' : Nat)
    (h : (b.grid y' x').is_revealed = true) :
    ((setTile b x y (revealTile1 (b.grid y x))).grid y' x').is_revealed = true := by
  rw [setTile_grid]
  by_cases h1 : y' = y
  · subst h1
    by_cases h2 : x' = x
    · subst h2; simp [revealTile1]
    · simp [h2, h]
  · simp [h1, h]

/-- Revealed cells stay revealed through the worklist loop. -/
theorem revealLoop_mono (fuel : Nat) :
    ∀ (b : Board) (stack : List (Nat × Nat)) (y x : Nat),
      (b.grid y x).is_revealed = true →
      ((revealLoop fuel b stack).grid y x).is_revealed = true := by
  induction fuel with
  | zero =>
    intro b stack y x h
    cases stack with
    | nil => exact h
    | cons p rest => exact h
  | succ fuel ih =>
    intro b stack y x h
    cases stack with
    | nil => exact h
    | cons p rest =>
      obtain ⟨px, py⟩ := p
      simp only [revealLoop]
      split
      · exact ih b rest y x h
      · split
        · exact ih _ rest y x (setTile_reveal_mono b px py y x h)
        · split
          · exact ih _ _ y x (setTile_reveal_mono b px py y x h)
          · exact ih _ rest y x (setTile_reveal_mono b px py y x h)

-- --- Lemmas about the neighbor-push loop ---

theorem foldl_mem_inv_mem {α β : Type} (f : List α → β → List α) (Q : α → β → Prop) :
    ∀ (l : List β), (∀ st e, e ∈ l → ∀ a, a ∈ f st e → a ∈ st ∨ Q a e) →
      ∀ (st : List α) (a : α), a ∈ l.foldl f st → a ∈ st ∨ ∃ e ∈ l, Q a e := by
  intro l
  induction l with
  | nil => intro _ st a h; exact Or.inl h
  | cons e tl ih =>
    intro hstep st a h
    have htl := ih (fun st' e' he' => hstep st' e' (List.mem_cons_of_mem e he')) (f st e) a h
    rcases htl with h' | ⟨e', he', hq⟩
    · rcases hstep st e (List.mem_cons_self e tl) a h' with h'' | hq
      · exact Or.inl h''
      · exact Or.inr ⟨e, List.mem_cons_self e tl, hq⟩
    · exact Or.inr ⟨e', List.mem_cons_of_mem e he', hq⟩

theorem pushNeighbors_subset (b : Board) (x y : Nat) (st : List (Nat × Nat)) :
    st ⊆ pushNeighbors b x y st := by
  apply foldl_subset
  intro st' e
  dsimp only
  split
  · exact fun a h => List.mem_cons_of_mem _ h
  · exact fun a h => h

theorem pushNeighbors_length (b : Board) (x y : Nat) (st : List (Nat × Nat)) :
    (pushNeighbors b x y st).length ≤ st.length + 8 := by
  have h := foldl_length_le
    (fun st (ij : Int × Int) =>
      let ny : Int := (y : Int) + ij.1
      let nx : Int := (x : Int) + ij.2
      if 0 ≤ nx ∧ nx < (b.width : Int) ∧ 0 ≤ ny ∧ ny < (b.height : Int) ∧
          (b.grid ny.toNat nx.toNat).is_revealed = false
      then (nx.toNat, ny.toNat) :: st else st)
    (by intro st' e; dsimp only; split <;> simp) offsets8 st
  exact h

/-- Everything on the stack after a push was either already there, or is an
in-bounds, not-yet-revealed cell at one of the eight offsets. -/
theorem pushNeighbors_mem_inv (b : Board) (x y : Nat) (st : List (Nat × Nat)) :
    ∀ p ∈ pushNeighbors b x y st, p ∈ st ∨
      ∃ ij ∈ offsets8,
        0 ≤ (x : Int) + ij.2 ∧ (x : Int) + ij.2 < (b.width : Int) ∧
        0 ≤ (y : Int) + ij.1 ∧ (y : Int) + ij.1 < (b.height : Int) ∧
        (b.grid ((y : Int) + ij.1).toNat ((x : Int) + ij.2).toNat).is_revealed = false ∧
        p = (((x : Int) + ij.2).toNat, ((y : Int) + ij.1).toNat) := by
  intro p hp
  refine foldl_mem_inv_mem _
    (fun a ij =>
      0 ≤ (x : Int) + ij.2 ∧ (x : Int) + ij.2 < (b.width : Int) ∧
      0 ≤ (y : Int) + ij.1 ∧ (y : Int) + ij.1 < (b.height : Int) ∧
      (b.grid ((y : Int) + ij.1).toNat ((x : Int) + ij.2).toNat).is_revealed = false ∧
      a = (((x : Int) + ij.2).toNat, ((y : Int) + ij.1).toNat))
    offsets8 ?_ st p hp
  intro st' ij hij a ha
  dsimp only at ha
  split at ha
  · rcases List.mem_cons.mp ha with h | h
    · rename_i hcond
      exact Or.inr ⟨hcond.1, hcond.2.1, hcond.2.2.1, hcond.2.2.2.1, hcond.2.2.2.2, h⟩
    · exact Or.inl h
  · exact Or.inl ha

/-- Every in-bounds, not-yet-revealed cell at one of the eight offsets does
get pushed. -/
theorem pushNeighbors_mem_of (b : Board) (x y : Nat) (st : List (Nat × Nat))
    (ij : Int × Int) (hij : ij ∈ offsets8)
    (h1 : 0 ≤ (x : Int) + ij.2) (h2 : (x : Int) + ij.2 < (b.width : Int))
    (h3 : 0 ≤ (y : Int) + ij.1) (h4 : (y : Int) + ij.1 < (b.height : Int))
    (h5 : (b.grid ((y : Int) + ij.1).toNat ((x : Int) + ij.2).toNat).is_revealed = false) :
    (((x : Int) + ij.2).toNat, ((y : Int) + ij.1).toNat) ∈ pushNeighbors b x y st := by
  refine foldl_mem_of_mem _ ?_ _ ij ?_ offsets8 st hij
  · intro st' e
    dsimp only
    split
    · exact fun a h => List.mem_cons_of_mem _ h
    · exact fun a h => h
  · intro st'
    dsimp only
    rw [if_pos ⟨h1, h2, h3, h4, h5⟩]
    exact List.mem_cons_self _ _

-- --- The unrevealed-cell count used as the loop variant ---

theorem unrevealedCount_le (b : Board) : unrevealedCount b ≤ b.width * b.height := by
  unfold unrevealedCount
  calc _ ≤ ((Finset.range b.height) ×ˢ (Finset.range b.width)).card := Finset.card_filter_le _ _
    _ = b.height * b.width := by simp [Finset.card_product]
    _ = b.width * b.height := Nat.mul_comm _ _

theorem unrevealedCount_setRevealed (b : Board) (x y : Nat)
    (hx : x < b.width) (hy : y < b.height) (h : (b.grid y x).is_revealed = false) :
    unrevealedCount (setTile b x y (revealTile1 (b.grid y x))) + 1 =
      unrevealedCount b := by
  have hmem : ((y, x) : Nat × Nat) ∈
      ((Finset.range b.height) ×ˢ (Finset.range b.width)).filter
        (fun yx => (b.grid yx.1 yx.2).is_revealed = false) := by
    simp [Finset.mem_filter, Finset.mem_product, hx, hy, h]
  have hfe :
      ((Finset.range b.height) ×ˢ (Finset.range b.width)).filter
        (fun yx => ((setTile b x y (revealTile1 (b.grid y x))).grid
          yx.1 yx.2).is_revealed = false) =
      (((Finset.range b.height) ×ˢ (Finset.range b.width)).filter
        (fun yx => (b.grid yx.1 yx.2).is_revealed = false)).erase (y, x) := by
    ext p
    obtain ⟨p1, p2⟩ := p
    simp only [Finset.mem_filter, Finset.mem_erase, Finset.mem_product, Finset.mem_range,
      setTile_grid]
    by_cases h1 : p1 = y
    · subst h1
      by_cases h2 : p2 = x
      · subst h2; simp [revealTile1]
      · simp [h2, Prod.ext_iff]
    · simp [h1, Prod.ext_iff]
  unfold unrevealedCount
  rw [setTile_width, setTile_height, hfe, Finset.card_erase_of_mem hmem]
  have hpos : 0 < (((Finset.range b.height) ×ˢ (Finset.range b.width)).filter
      (fun yx => (b.grid yx.1 yx.2).is_revealed = false)).card :=
    Finset.card_pos.mpr ⟨_, hmem⟩
  omega

-- --- Completeness of the worklist: every unflagged stack entry gets revealed ---

theorem revealLoop_complete (fuel : Nat) :
    ∀ (b : Board) (stack : List (Nat × Nat)),
      (∀ p ∈ stack, p.1 < b.width ∧ p.2 < b.height) →
      stack.length + 9 * unrevealedCount b ≤ fuel →
      ∀ p ∈ stack, (b.grid p.2 p.1).is_flagged = false →
        ((revealLoop fuel b stack).grid p.2 p.1).is_revealed = true := by
  induction fuel with
  | zero =>
    intro b stack _ hlen p hp _
    have : stack = [] := List.eq_nil_of_length_eq_zero (by omega)
    subst this
    cases hp
  | succ fuel ih =>
    intro b stack hbounds hlen p hp hflag
    cases stack with
    | nil => cases hp
    | cons q rest =>
      obtain ⟨px, py⟩ := q
      simp only [revealLoop]
      split
      · rename_i hcase
        rcases List.mem_cons.mp hp with hph | hph
        · have hrev : (b.grid py px).is_revealed = true := by
            rcases hcase with hc | hc
            · exact hc
            · rw [hph] at hflag; simp only at hflag; rw [hflag] at hc; cases hc
          rw [hph]
          exact revealLoop_mono fuel b rest py px hrev
        · exact ih b rest (fun r hr => hbounds r (List.mem_cons_of_mem _ hr))
            (by simp at hlen ⊢; omega) p hph hflag
      · rename_i hcase
        push_neg at hcase
        have hrevF : (b.grid py px).is_revealed = false := by
          simpa using hcase.1
        have hxw : px < b.width := (hbounds _ (List.mem_cons_self _ _)).1
        have hyh : py < b.height := (hbounds _ (List.mem_cons_self _ _)).2
        have hU := unrevealedCount_setRevealed b px py hxw hyh hrevF
        have hbounds' : ∀ r ∈ rest,
            r.1 < (setTile b px py (revealTile1 (b.grid py px))).width ∧
            r.2 < (setTile b px py (revealTile1 (b.grid py px))).height := by
          intro r hr
          rw [setTile_width, setTile_height]
          exact hbounds r (List.mem_cons_of_mem _ hr)
        have hflag' : ∀ (r : Nat × Nat), (b.grid r.2 r.1).is_flagged = false →
            ((setTile b px py (revealTile1 (b.grid py px))).grid
              r.2 r.1).is_flagged = false := by
          intro r hr
          rw [(setTile_preserve b px py (revealTile1 (b.grid py px))
            rfl rfl rfl r.2 r.1).2.1]
          exact hr
        have hheadrev :
            ((setTile b px py (revealTile1 (b.grid py px))).grid
              py px).is_revealed = true := by
          rw [setTile_grid_same]
          rfl
        split
        · -- the popped tile is a mine: it is revealed, neighbors are not pushed
          rcases List.mem_cons.mp hp with hph | hph
          · rw [hph]
            exact revealLoop_mono fuel _ rest py px hheadrev
          · exact ih _ rest hbounds' (by simp at hlen ⊢; omega) p hph (hflag' p hflag)
        · split
          · -- zero neighbor count: neighbors pushed
            rcases List.mem_cons.mp hp with hph | hph
            · rw [hph]
              exact revealLoop_mono fuel _ _ py px hheadrev
            · have hplen := pushNeighbors_length
                (setTile b px py (revealTile1 (b.grid py px))) px py rest
              have hbounds'' : ∀ r ∈ pushNeighbors
                  (setTile b px py (revealTile1 (b.grid py px))) px py rest,
                  r.1 < (setTile b px py (revealTile1 (b.grid py px))).width ∧
                  r.2 < (setTile b px py (revealTile1 (b.grid py px))).height := by
                intro r hr
                rcases pushNeighbors_mem_inv _ px py rest r hr with h | ⟨ij, _, c1, c2, c3, c4, _, hpr⟩
                · exact hbounds' r h
                · subst hpr
                  rw [setTile_width] at c2
                  rw [setTile_height] at c4
                  rw [setTile_width, setTile_height]
                  exact ⟨by omega, by omega⟩
              exact ih _ _ hbounds'' (by simp at hlen hplen ⊢; omega)
                p (pushNeighbors_subset _ px py rest hph) (hflag' p hflag)
          · -- nonzero neighbor count: only the popped tile is revealed
            rcases List.mem_cons.mp hp with hph | hph
            · rw [hph]
              exact revealLoop_mono fuel _ rest py px hheadrev
            · exact ih _ rest hbounds' (by simp at hlen ⊢; omega) p hph (hflag' p hflag)

-- --- Consistency of stored neighbor counts, and mine-safety of the cascade ---

theorem revealLoop_nil (fuel : Nat) (b : Board) : revealLoop fuel b [] = b := by
  cases fuel <;> rfl

theorem offsets8_subset_offsets9 : ∀ ij ∈ offsets8, ij ∈ offsets9 := by decide

/-- The stored-count computation only looks at dimensions and `is_mine`
fields. -/
theorem countAdjacentMines_congr (b b' : Board)
    (hw : b'.width = b.width) (hh : b'.height = b.height)
    (hm : ∀ y x, (b'.grid y x).is_mine = (b.grid y x).is_mine) (x y : Nat) :
    countAdjacentMines b' x y = countAdjacentMines b x y := by
  unfold countAdjacentMines
  apply List.foldl_ext
  intro a ij _
  simp only [hw, hh, hm]

theorem consistent_setTile_reveal (b : Board) (x y : Nat) (h : Consistent b) :
    Consistent (setTile b x y (revealTile1 (b.grid y x))) := by
  intro cy hcy cx hcx hmine
  rw [setTile_width] at hcx
  rw [setTile_height] at hcy
  have hcnt := countAdjacentMines_congr b (setTile b x y (revealTile1 (b.grid y x)))
    (setTile_width b x y _) (setTile_height b x y _)
    (fun y' x' => (setTile_preserve b x y (revealTile1 (b.grid y x)) rfl rfl rfl y' x').1)
    cx cy
  rw [hcnt]
  obtain ⟨g1, g2, g3⟩ := setTile_preserve b x y (revealTile1 (b.grid y x)) rfl rfl rfl cy cx
  rw [g1] at hmine
  rw [g3]
  exact h cy hcy cx hcx hmine

/-- If the stored computation finds zero adjacent mines, then no in-bounds
cell at any of the nine offsets is a mine. -/
theorem countAdjacentMines_eq_zero (b : Board) (x y : Nat)
    (hc : countAdjacentMines b x y = 0) :
    ∀ ij ∈ offsets9,
      ¬(0 ≤ (y : Int) + ij.1 ∧ (y : Int) + ij.1 < (b.height : Int) ∧
        0 ≤ (x : Int) + ij.2 ∧ (x : Int) + ij.2 < (b.width : Int) ∧
        (b.grid ((y : Int) + ij.1).toNat ((x : Int) + ij.2).toNat).is_mine = true) := by
  have h0 : offsets9.foldl (fun c ij =>
      if 0 ≤ (y : Int) + ij.1 ∧ (y : Int) + ij.1 < (b.height : Int) ∧
          0 ≤ (x : Int) + ij.2 ∧ (x : Int) + ij.2 < (b.width : Int) ∧
          (b.grid ((y : Int) + ij.1).toNat ((x : Int) + ij.2).toNat).is_mine = true
      then c + 1 else c) 0 = 0 := hc
  exact (foldl_count_eq_zero _ offsets9 0).mp h0 |>.2

/-- Neighbors pushed from a zero-count, non-mine, in-bounds cell of a
consistent board are in-bounds non-mine cells. -/
theorem pushNeighbors_safe (c : Board) (px py : Nat) (st : List (Nat × Nat))
    (hcons : Consistent c) (hpx : px < c.width) (hpy : py < c.height)
    (hmine : (c.grid py px).is_mine = false)
    (hnm : (c.grid py px).neighbor_mines = 0) :
    ∀ p ∈ pushNeighbors c px py st,
      p ∈ st ∨ (p.1 < c.width ∧ p.2 < c.height ∧ (c.grid p.2 p.1).is_mine = false) := by
  intro p hp
  rcases pushNeighbors_mem_inv c px py st p hp with h | ⟨ij, hij, c1, c2, c3, c4, _, hpr⟩
  · exact Or.inl h
  · right
    have hzero : countAdjacentMines c px py = 0 := by
      rw [← hcons py hpy px hpx hmine]
      exact hnm
    have hnomine := countAdjacentMines_eq_zero c px py hzero ij (offsets8_subset_offsets9 ij hij)
    have hmine' : (c.grid ((py : Int) + ij.1).toNat ((px : Int) + ij.2).toNat).is_mine = false := by
      by_cases hb : (c.grid ((py : Int) + ij.1).toNat ((px : Int) + ij.2).toNat).is_mine = true
      · exact absurd ⟨c3, c4, c1, c2, hb⟩ hnomine
      · simpa using hb
    subst hpr
    exact ⟨by omega, by omega, hmine'⟩

/-- If the whole worklist consists of in-bounds non-mine cells of a
consistent board, the loop never changes the revealed status of any mine. -/
theorem revealLoop_safe_frame (fuel : Nat) :
    ∀ (b : Board) (stack : List (Nat × Nat)),
      Consistent b →
      (∀ p ∈ stack, p.1 < b.width ∧ p.2 < b.height ∧ (b.grid p.2 p.1).is_mine = false) →
      ∀ y x, (b.grid y x).is_mine = true →
        ((revealLoop fuel b stack).grid y x).is_revealed = (b.grid y x).is_revealed := by
  induction fuel with
  | zero =>
    intro b stack _ _ y x _
    cases stack with
    | nil => rfl
    | cons p rest => rfl
  | succ fuel ih =>
    intro b stack hcons hstack y x hmine
    cases stack with
    | nil => rfl
    | cons q rest =>
      obtain ⟨px, py⟩ := q
      have hhead := hstack (px, py) (List.mem_cons_self _ _)
      have hcons' := consistent_setTile_reveal b px py hcons
      have hne : ¬(y = py ∧ x = px) := by
        rintro ⟨rfl, rfl⟩
        rw [hmine] at hhead
        exact absurd hhead.2.2 (by simp)
      have hgother := setTile_grid_other b px py (revealTile1 (b.grid py px)) y x hne
      have hrest' : ∀ p ∈ rest,
          p.1 < (setTile b px py (revealTile1 (b.grid py px))).width ∧
          p.2 < (setTile b px py (revealTile1 (b.grid py px))).height ∧
          ((setTile b px py (revealTile1 (b.grid py px))).grid p.2 p.1).is_mine = false := by
        intro p hp
        obtain ⟨d1, d2, d3⟩ := hstack p (List.mem_cons_of_mem _ hp)
        rw [setTile_width, setTile_height]
        refine ⟨d1, d2, ?_⟩
        rw [(setTile_preserve b px py (revealTile1 (b.grid py px)) rfl rfl rfl p.2 p.1).1]
        exact d3
      have hmine' :
          ((setTile b px py (revealTile1 (b.grid py px))).grid y x).is_mine = true := by
        rw [hgother]; exact hmine
      simp only [revealLoop]
      split
      · exact ih b rest hcons (fun p hp => hstack p (List.mem_cons_of_mem _ hp)) y x hmine
      · split
        · rename_i hmcase
          rw [hmcase] at hhead
          exact absurd hhead.2.2 (by simp)
        · split
          · rename_i hnfcase hmcase hnmcase
            have hpush : ∀ p ∈ pushNeighbors (setTile b px py (revealTile1 (b.grid py px))) px py rest,
                p.1 < (setTile b px py (revealTile1 (b.grid py px))).width ∧
                p.2 < (setTile b px py (revealTile1 (b.grid py px))).height ∧
                ((setTile b px py (revealTile1 (b.grid py px))).grid p.2 p.1).is_mine = false := by
              intro p hp
              have hb2px : px < (setTile b px py (revealTile1 (b.grid py px))).width := by
                rw [setTile_width]; exact hhead.1
              have hb2py : py < (setTile b px py (revealTile1 (b.grid py px))).height := by
                rw [setTile_height]; exact hhead.2.1
              have hb2mine :
                  ((setTile b px py (revealTile1 (b.grid py px))).grid py px).is_mine = false := by
                rw [setTile_grid_same]
                simpa [revealTile1] using hhead.2.2
              have hb2nm :
                  ((setTile b px py (revealTile1 (b.grid py px))).grid py px).neighbor_mines = 0 := by
                rw [setTile_grid_same]
                simpa [revealTile1] using hnmcase
              rcases pushNeighbors_safe _ px py rest hcons' hb2px hb2py hb2mine hb2nm p hp with h | h
              · exact hrest' p h
              · exact h
            rw [ih _ _ hcons' hpush y x hmine', hgother]
          · rw [ih _ rest hcons' hrest' y x hmine', hgother]

-- --- C10: the cascade never reveals a mine other than the clicked cell ---

/-- C10: on a board whose stored neighbor counts are consistent with the mine
layout, `reveal_tile (x, y)` leaves the revealed status of every mine other
than the clicked cell unchanged: the cascade only pushes neighbors of cells
whose stored count is zero, and by consistency such cells have no adjacent
mines, so the worklist only ever holds non-mine cells after the initial
target is processed. -/
theorem C10_cascade_never_reveals_other_mines :
    ∀ (b : Board) (x y : Int) (cx cy : Nat),
      Consistent b →
      (b.grid cy cx).is_mine = true →
      ¬((cx : Int) = x ∧ (cy : Int) = y) →
      ((reveal_tile b x y).grid cy cx).is_revealed = (b.grid cy cx).is_revealed := by
  intro b x y cx cy hcons hmine hne
  unfold reveal_tile
  split
  · rename_i hbounds
    obtain ⟨hx0, hxw, hy0, hyh⟩ := hbounds
    have hnetn : ¬(cy = y.toNat ∧ cx = x.toNat) := by
      rintro ⟨rfl, rfl⟩
      exact hne ⟨by omega, by omega⟩
    have hgother := setTile_grid_other b x.toNat y.toNat
      (revealTile1 (b.grid y.toNat x.toNat)) cy cx hnetn
    show ((revealLoop (9 * (b.width * b.height) + 1) b [(x.toNat, y.toNat)]).grid
      cy cx).is_revealed = (b.grid cy cx).is_revealed
    simp only [revealLoop]
    split
    · rfl
    · split
      · rw [hgother]
      · split
        · rename_i hnfcase hmcase hnmcase
          have hcons' := consistent_setTile_reveal b x.toNat y.toNat hcons
          have htx : x.toNat < b.width := by omega
          have hty : y.toNat < b.height := by omega
          have hb2px : x.toNat < (setTile b x.toNat y.toNat
              (revealTile1 (b.grid y.toNat x.toNat))).width := by
            rw [setTile_width]; exact htx
          have hb2py : y.toNat < (setTile b x.toNat y.toNat
              (revealTile1 (b.grid y.toNat x.toNat))).height := by
            rw [setTile_height]; exact hty
          have hb2mine : ((setTile b x.toNat y.toNat
              (revealTile1 (b.grid y.toNat x.toNat))).grid y.toNat x.toNat).is_mine = false := by
            rw [setTile_grid_same]
            simp only [revealTile1]
            simpa using hmcase
          have hb2nm : ((setTile b x.toNat y.toNat
              (revealTile1 (b.grid y.toNat x.toNat))).grid y.toNat x.toNat).neighbor_mines = 0 := by
            rw [setTile_grid_same]
            simpa [revealTile1] using hnmcase
          have hpush : ∀ p ∈ pushNeighbors (setTile b x.toNat y.toNat
              (revealTile1 (b.grid y.toNat x.toNat))) x.toNat y.toNat [],
              p.1 < (setTile b x.toNat y.toNat (revealTile1 (b.grid y.toNat x.toNat))).width ∧
              p.2 < (setTile b x.toNat y.toNat (revealTile1 (b.grid y.toNat x.toNat))).height ∧
              ((setTile b x.toNat y.toNat (revealTile1 (b.grid y.toNat x.toNat))).grid
                p.2 p.1).is_mine = false := by
            intro p hp
            rcases pushNeighbors_safe _ x.toNat y.toNat [] hcons' hb2px hb2py hb2mine hb2nm
              p hp with h | h
            · cases h
            · exact h
          have hmine' : ((setTile b x.toNat y.toNat
              (revealTile1 (b.grid y.toNat x.toNat))).grid cy cx).is_mine = true := by
            rw [hgother]; exact hmine
          rw [revealLoop_safe_frame _ _ _ hcons' hpush cy cx hmine', hgother]
        · rw [hgother]
  · rfl

/-- Concrete instantiation of `C10_cascade_never_reveals_other_mines`: a 2×1
board with a mine at column 1; revealing column 0 leaves the mine hidden. -/
theorem C10_cascade_never_reveals_other_mines_witness :
    Consistent (calculate_neighbor_mines (setTile (create_board 2 1) 1 0 (mineTile1 defaultTile))) ∧
    ((calculate_neighbor_mines (setTile (create_board 2 1) 1 0
      (mineTile1 defaultTile))).grid 0 1).is_mine = true ∧
    ((reveal_tile (calculate_neighbor_mines (setTile (create_board 2 1) 1 0
        (mineTile1 defaultTile))) 0 0).grid 0 1).is_revealed =
      ((calculate_neighbor_mines (setTile (create_board 2 1) 1 0
        (mineTile1 defaultTile))).grid 0 1).is_revealed :=
  ⟨by decide, by decide,
    C10_cascade_never_reveals_other_mines _ 0 0 1 0 (by decide) (by decide) (by decide)⟩

-- --- Closure of the cascade: neighbors of newly revealed zero cells ---

/-- Invariant of the worklist loop relative to a starting board `b0`: for
every cell that was unrevealed in `b0` but is revealed in the current board,
is not a mine and stores a zero neighbor count, each of its in-bounds
neighbors is already revealed, or flagged, or still pending on the stack. -/
def CascadeInv (b0 b : Board) (stack : List (Nat × Nat)) : Prop :=
  ∀ cx cy, cx < b.width → cy < b.height →
    (b0.grid cy cx).is_revealed = false →
    (b.grid cy cx).is_revealed = true →
    (b.grid cy cx).is_mine = false →
    (b.grid cy cx).neighbor_mines = 0 →
    ∀ ij ∈ offsets8,
      0 ≤ (cx : Int) + ij.2 → (cx : Int) + ij.2 < (b.width : Int) →
      0 ≤ (cy : Int) + ij.1 → (cy : Int) + ij.1 < (b.height : Int) →
      (b.grid ((cy : Int) + ij.1).toNat ((cx : Int) + ij.2).toNat).is_revealed = true ∨
      (b.grid ((cy : Int) + ij.1).toNat ((cx : Int) + ij.2).toNat).is_flagged = true ∨
      (((cx : Int) + ij.2).toNat, ((cy : Int) + ij.1).toNat) ∈ stack

theorem revealLoop_closure (fuel : Nat) :
    ∀ (b0 b : Board) (stack : List (Nat × Nat)),
      (∀ p ∈ stack, p.1 < b.width ∧ p.2 < b.height) →
      stack.length + 9 * unrevealedCount b ≤ fuel →
      CascadeInv b0 b stack →
      CascadeInv b0 (revealLoop fuel b stack) [] := by
  induction fuel with
  | zero =>
    intro b0 b stack _ hlen hinv
    have hnil : stack = [] := List.eq_nil_of_length_eq_zero (by omega)
    subst hnil
    rw [revealLoop_nil]
    intro cx cy h1 h2 h3 h4 h5 h6 ij hij d1 d2 d3 d4
    rcases hinv cx cy h1 h2 h3 h4 h5 h6 ij hij d1 d2 d3 d4 with h | h | h
    · exact Or.inl h
    · exact Or.inr (Or.inl h)
    · cases h
  | succ fuel ih =>
    intro b0 b stack hbounds hlen hinv
    cases stack with
    | nil =>
      rw [revealLoop_nil]
      intro cx cy h1 h2 h3 h4 h5 h6 ij hij d1 d2 d3 d4
      rcases hinv cx cy h1 h2 h3 h4 h5 h6 ij hij d1 d2 d3 d4 with h | h | h
      · exact Or.inl h
      · exact Or.inr (Or.inl h)
      · cases h
    | cons q rest =>
      obtain ⟨px, py⟩ := q
      simp only [revealLoop]
      split
      · -- popped cell already revealed or flagged: nothing changes
        rename_i hcase
        refine ih b0 b rest (fun p hp => hbounds p (List.mem_cons_of_mem _ hp))
          (by simp at hlen ⊢; omega) ?_
        intro cx cy h1 h2 h3 h4 h5 h6 ij hij d1 d2 d3 d4
        rcases hinv cx cy h1 h2 h3 h4 h5 h6 ij hij d1 d2 d3 d4 with h | h | h
        · exact Or.inl h
        · exact Or.inr (Or.inl h)
        · rcases List.mem_cons.mp h with h | h
          · obtain ⟨e1, e2⟩ := Prod.mk.injEq _ _ _ _ |>.mp h
            rcases hcase with hc | hc
            · exact Or.inl (by rw [e1, e2]; exact hc)
            · exact Or.inr (Or.inl (by rw [e1, e2]; exact hc))
          · exact Or.inr (Or.inr h)
      · rename_i hcase
        push_neg at hcase
        have hrevF : (b.grid py px).is_revealed = false := by simpa using hcase.1
        have hxw : px < b.width := (hbounds _ (List.mem_cons_self _ _)).1
        have hyh : py < b.height := (hbounds _ (List.mem_cons_self _ _)).2
        have hU := unrevealedCount_setRevealed b px py hxw hyh hrevF
        have hgsame : (setTile b px py (revealTile1 (b.grid py px))).grid py px =
            revealTile1 (b.grid py px) := setTile_grid_same b px py _
        have hrest : ∀ p ∈ rest,
            p.1 < (setTile b px py (revealTile1 (b.grid py px))).width ∧
            p.2 < (setTile b px py (revealTile1 (b.grid py px))).height := by
          intro p hp
          exact hbounds p (List.mem_cons_of_mem _ hp)
        split
        · -- popped cell is a mine: revealed, no pushes
          rename_i hmcase
          refine ih b0 _ rest hrest (by simp at hlen ⊢; omega) ?_
          intro cx cy h1 h2 h3 h4 h5 h6 ij hij d1 d2 d3 d4
          by_cases hcc : cy = py ∧ cx = px
          · obtain ⟨rfl, rfl⟩ := hcc
            rw [hgsame] at h5
            simp only [revealTile1] at h5
            rw [hmcase] at h5
            cases h5
          · have hgc := setTile_grid_other b px py (revealTile1 (b.grid py px)) cy cx hcc
            rw [hgc] at h4 h5 h6
            rcases hinv cx cy h1 h2 h3 h4 h5 h6 ij hij d1 d2 d3 d4 with h | h | h
            · exact Or.inl (setTile_reveal_mono b px py _ _ h)
            · refine Or.inr (Or.inl ?_)
              rw [(setTile_preserve b px py (revealTile1 (b.grid py px)) rfl rfl rfl _ _).2.1]
              exact h
            · rcases List.mem_cons.mp h with h | h
              · obtain ⟨e1, e2⟩ := Prod.mk.injEq _ _ _ _ |>.mp h
                refine Or.inl ?_
                rw [e1, e2, hgsame]
                rfl
              · exact Or.inr (Or.inr h)
        · split
          · -- popped cell has zero count: its unrevealed neighbors are pushed
            rename_i hmcase hnmcase
            have hplen := pushNeighbors_length
              (setTile b px py (revealTile1 (b.grid py px))) px py rest
            have hbounds2 : ∀ r ∈ pushNeighbors
                (setTile b px py (revealTile1 (b.grid py px))) px py rest,
                r.1 < (setTile b px py (revealTile1 (b.grid py px))).width ∧
                r.2 < (setTile b px py (revealTile1 (b.grid py px))).height := by
              intro r hr
              rcases pushNeighbors_mem_inv _ px py rest r hr with h | ⟨ij, _, c1, c2, c3, c4, _, hpr⟩
              · exact hrest r h
              · subst hpr
                rw [setTile_width] at c2
                rw [setTile_height] at c4
                rw [setTile_width, setTile_height]
                exact ⟨by omega, by omega⟩
            refine ih b0 _ _ hbounds2 (by simp at hlen hplen ⊢; omega) ?_
            intro cx cy h1 h2 h3 h4 h5 h6 ij hij d1 d2 d3 d4
            by_cases hcc : cy = py ∧ cx = px
            · -- obligations of the newly revealed zero cell itself
              obtain ⟨rfl, rfl⟩ := hcc
              by_cases hrevn : ((setTile b cx cy (revealTile1 (b.grid cy cx))).grid
                  ((cy : Int) + ij.1).toNat ((cx : Int) + ij.2).toNat).is_revealed = true
              · exact Or.inl hrevn
              · refine Or.inr (Or.inr ?_)
                refine pushNeighbors_mem_of _ cx cy rest ij hij d1 d2 d3 d4 ?_
                simpa using hrevn
            · have hgc := setTile_grid_other b px py (revealTile1 (b.grid py px)) cy cx hcc
              rw [hgc] at h4 h5 h6
              rcases hinv cx cy h1 h2 h3 h4 h5 h6 ij hij d1 d2 d3 d4 with h | h | h
              · exact Or.inl (setTile_reveal_mono b px py _ _ h)
              · refine Or.inr (Or.inl ?_)
                rw [(setTile_preserve b px py (revealTile1 (b.grid py px)) rfl rfl rfl _ _).2.1]
                exact h
              · rcases List.mem_cons.mp h with h | h
                · obtain ⟨e1, e2⟩ := Prod.mk.injEq _ _ _ _ |>.mp h
                  refine Or.inl ?_
                  rw [e1, e2, hgsame]
                  rfl
                · exact Or.inr (Or.inr (pushNeighbors_subset _ px py rest h))
          · -- popped cell has a nonzero count: revealed, no pushes
            rename_i hmcase hnmcase
            refine ih b0 _ rest hrest (by simp at hlen ⊢; omega) ?_
            intro cx cy h1 h2 h3 h4 h5 h6 ij hij d1 d2 d3 d4
            by_cases hcc : cy = py ∧ cx = px
            · obtain ⟨rfl, rfl⟩ := hcc
              rw [hgsame] at h6
              simp only [revealTile1] at h6
              exact absurd h6 hnmcase
            · have hgc := setTile_grid_other b px py (revealTile1 (b.grid py px)) cy cx hcc
              rw [hgc] at h4 h5 h6
              rcases hinv cx cy h1 h2 h3 h4 h5 h6 ij hij d1 d2 d3 d4 with h | h | h
              · exact Or.inl (setTile_reveal_mono b px py _ _ h)
              · refine Or.inr (Or.inl ?_)
                rw [(setTile_preserve b px py (revealTile1 (b.grid py px)) rfl rfl rfl _ _).2.1]
                exact h
              · rcases List.mem_cons.mp h with h | h
                · obtain ⟨e1, e2⟩ := Prod.mk.injEq _ _ _ _ |>.mp h
                  refine Or.inl ?_
                  rw [e1, e2, hgsame]
                  rfl
                · exact Or.inr (Or.inr h)

-- --- Helpers for the C1 cascade claim ---

theorem offsets8_mem (i j : Int) (hi : i = -1 ∨ i = 0 ∨ i = 1)
    (hj : j = -1 ∨ j = 0 ∨ j = 1) (hnz : ¬(i = 0 ∧ j = 0)) : (i, j) ∈ offsets8 := by
  rcases hi with rfl | rfl | rfl <;> rcases hj with rfl | rfl | rfl <;>
    first
    | decide
    | exact absurd ⟨rfl, rfl⟩ hnz

theorem countAdjacentMines_no_mines (b : Board)
    (hall : ∀ cy cx, cy < b.height → cx < b.width → (b.grid cy cx).is_mine = false)
    (x y : Nat) : countAdjacentMines b x y = 0 := by
  have h0 : offsets9.foldl (fun c ij =>
      if 0 ≤ (y : Int) + ij.1 ∧ (y : Int) + ij.1 < (b.height : Int) ∧
          0 ≤ (x : Int) + ij.2 ∧ (x : Int) + ij.2 < (b.width : Int) ∧
          (b.grid ((y : Int) + ij.1).toNat ((x : Int) + ij.2).toNat).is_mine = true
      then c + 1 else c) 0 = 0 := by
    refine (foldl_count_eq_zero _ offsets9 0).mpr ⟨rfl, ?_⟩
    rintro ij - ⟨g1, g2, g3, g4, g5⟩
    have hyb : ((y : Int) + ij.1).toNat < b.height := by omega
    have hxb : ((x : Int) + ij.2).toNat < b.width := by omega
    rw [hall _ _ hyb hxb] at g5
    cases g5
  exact h0

/-- Starting a cascade from scratch: relative to the board it starts on, the
invariant holds vacuously for any worklist. -/
theorem cascadeInv_init (b : Board) (stack : List (Nat × Nat)) : CascadeInv b b stack := by
  intro cx cy _ _ h3 h4 _ _ _ _ _ _ _ _
  rw [h3] at h4
  cases h4

-- --- C1: the zero-count cascade ---

/-- C1: on a board whose stored neighbor counts are consistent with its mine
layout, calling `reveal_tile` on an in-bounds, unrevealed, unflagged,
non-mine cell whose `neighbor_mines` is `0` reveals that cell, reveals every
in-bounds, previously-unrevealed, unflagged neighbor of it, and the cascade
recurses: every cell newly revealed by the call that is a zero-count non-mine
cell has all of its in-bounds neighbors revealed or flagged afterwards
(second part of the first conjunct).  In particular (second conjunct), on a
board with zero mines, all cells unrevealed and unflagged and counts
consistent (hence all zero), a single `reveal_tile` call on any in-bounds
cell reveals every cell of the grid.  (A mine cell stops the reveal before
the cascade check, so the zero-count premise is about the non-mine cells
that carry meaningful counts.) -/
theorem C1_zero_cascade :
    (∀ (b : Board) (x y : Int),
      Consistent b →
      0 ≤ x → x < (b.width : Int) → 0 ≤ y → y < (b.height : Int) →
      (b.grid y.toNat x.toNat).is_revealed = false →
      (b.grid y.toNat x.toNat).is_flagged = false →
      (b.grid y.toNat x.toNat).is_mine = false →
      (b.grid y.toNat x.toNat).neighbor_mines = 0 →
      ((reveal_tile b x y).grid y.toNat x.toNat).is_revealed = true ∧
      (∀ ij ∈ offsets8,
        0 ≤ x + ij.2 → x + ij.2 < (b.width : Int) →
        0 ≤ y + ij.1 → y + ij.1 < (b.height : Int) →
        (b.grid (y + ij.1).toNat (x + ij.2).toNat).is_revealed = false →
        (b.grid (y + ij.1).toNat (x + ij.2).toNat).is_flagged = false →
        ((reveal_tile b x y).grid (y + ij.1).toNat (x + ij.2).toNat).is_revealed = true) ∧
      (∀ cx cy, cx < b.width → cy < b.height →
        (b.grid cy cx).is_revealed = false →
        ((reveal_tile b x y).grid cy cx).is_revealed = true →
        ((reveal_tile b x y).grid cy cx).is_mine = false →
        ((reveal_tile b x y).grid cy cx).neighbor_mines = 0 →
        ∀ ij ∈ offsets8,
          0 ≤ (cx : Int) + ij.2 → (cx : Int) + ij.2 < (b.width : Int) →
          0 ≤ (cy : Int) + ij.1 → (cy : Int) + ij.1 < (b.height : Int) →
          ((reveal_tile b x y).grid ((cy : Int) + ij.1).toNat
            ((cx : Int) + ij.2).toNat).is_revealed = true ∨
          ((reveal_tile b x y).grid ((cy : Int) + ij.1).toNat
            ((cx : Int) + ij.2).toNat).is_flagged = true)) ∧
    (∀ (b : Board) (x y : Int),
      Consistent b →
      (∀ cy cx, cy < b.height → cx < b.width →
        (b.grid cy cx).is_mine = false ∧ (b.grid cy cx).is_revealed = false ∧
        (b.grid cy cx).is_flagged = false) →
      0 ≤ x → x < (b.width : Int) → 0 ≤ y → y < (b.height : Int) →
      ∀ cx cy, cx < b.width → cy < b.height →
        ((reveal_tile b x y).grid cy cx).is_revealed = true) := by
  constructor
  · intro b x y hcons hx0 hxw hy0 hyh hrev hflag hmine hnm
    have htxw : x.toNat < b.width := by omega
    have htyh : y.toNat < b.height := by omega
    have hrw : reveal_tile b x y = revealLoop (revealFuel b) b [(x.toNat, y.toNat)] := by
      unfold reveal_tile
      rw [if_pos ⟨hx0, hxw, hy0, hyh⟩]
    have hUle := unrevealedCount_le b
    have hb1 : ∀ p ∈ [(x.toNat, y.toNat)], p.1 < b.width ∧ p.2 < b.height := by
      intro p hp
      rw [List.mem_singleton] at hp
      subst hp
      exact ⟨htxw, htyh⟩
    have hfuel : ([(x.toNat, y.toNat)] : List (Nat × Nat)).length +
        9 * unrevealedCount b ≤ revealFuel b := by
      simp only [List.length_singleton]
      unfold revealFuel
      omega
    have htarget : ((revealLoop (revealFuel b) b [(x.toNat, y.toNat)]).grid
        y.toNat x.toNat).is_revealed = true :=
      revealLoop_complete (revealFuel b) b _ hb1 hfuel (x.toNat, y.toNat)
        (List.mem_singleton.mpr rfl) hflag
    have hclosure := revealLoop_closure (revealFuel b) b b _ hb1 hfuel (cascadeInv_init b _)
    obtain ⟨hW, hH, hfields⟩ := revealLoop_frame (revealFuel b) b [(x.toNat, y.toNat)]
    have e1 : ((x.toNat : Nat) : Int) = x := Int.toNat_of_nonneg hx0
    have e2 : ((y.toNat : Nat) : Int) = y := Int.toNat_of_nonneg hy0
    rw [hrw]
    refine ⟨htarget, ?_, ?_⟩
    · intro ij hij d1 d2 d3 d4 hnrev hnflag
      have hres := hclosure x.toNat y.toNat (by rw [hW]; exact htxw) (by rw [hH]; exact htyh)
        hrev htarget
        (by rw [(hfields y.toNat x.toNat).1]; exact hmine)
        (by rw [(hfields y.toNat x.toNat).2.2]; exact hnm)
        ij hij
        (by rw [e1]; exact d1)
        (by rw [e1, hW]; exact d2)
        (by rw [e2]; exact d3)
        (by rw [e2, hH]; exact d4)
      have ec1 : (((x.toNat : Nat) : Int) + ij.2).toNat = (x + ij.2).toNat := by rw [e1]
      have ec2 : (((y.toNat : Nat) : Int) + ij.1).toNat = (y + ij.1).toNat := by rw [e2]
      rcases hres with h | h | h
      · rw [ec2, ec1] at h
        exact h
      · rw [ec2, ec1] at h
        rw [(hfields _ _).2.1, hnflag] at h
        cases h
      · cases h
    · intro cx cy hcx hcy h3 h4 h5 h6 ij hij d1 d2 d3 d4
      have hres := hclosure cx cy (by rw [hW]; exact hcx) (by rw [hH]; exact hcy) h3 h4 h5 h6
        ij hij d1 (by rw [hW]; exact d2) d3 (by rw [hH]; exact d4)
      rcases hres with h | h | h
      · exact Or.inl h
      · exact Or.inr h
      · cases h
  · intro b x y hcons hall hx0 hxw hy0 hyh
    have htxw : x.toNat < b.width := by omega
    have htyh : y.toNat < b.height := by omega
    have hrw : reveal_tile b x y = revealLoop (revealFuel b) b [(x.toNat, y.toNat)] := by
      unfold reveal_tile
      rw [if_pos ⟨hx0, hxw, hy0, hyh⟩]
    have hUle := unrevealedCount_le b
    have hb1 : ∀ p ∈ [(x.toNat, y.toNat)], p.1 < b.width ∧ p.2 < b.height := by
      intro p hp
      rw [List.mem_singleton] at hp
      subst hp
      exact ⟨htxw, htyh⟩
    have hfuel : ([(x.toNat, y.toNat)] : List (Nat × Nat)).length +
        9 * unrevealedCount b ≤ revealFuel b := by
      simp only [List.length_singleton]
      unfold revealFuel
      omega
    have hallmine : ∀ cy cx, cy < b.height → cx < b.width → (b.grid cy cx).is_mine = false :=
      fun cy cx hy hx => (hall cy cx hy hx).1
    have hallrev : ∀ cy cx, cy < b.height → cx < b.width → (b.grid cy cx).is_revealed = false :=
      fun cy cx hy hx => (hall cy cx hy hx).2.1
    have hallflag : ∀ cy cx, cy < b.height → cx < b.width → (b.grid cy cx).is_flagged = false :=
      fun cy cx hy hx => (hall cy cx hy hx).2.2
    have hnm0 : ∀ cy cx, cy < b.height → cx < b.width →
        (b.grid cy cx).neighbor_mines = 0 := by
      intro cy cx hy hx
      rw [hcons cy hy cx hx (hallmine cy cx hy hx)]
      exact countAdjacentMines_no_mines b hallmine cx cy
    have htarget : ((revealLoop (revealFuel b) b [(x.toNat, y.toNat)]).grid
        y.toNat x.toNat).is_revealed = true :=
      revealLoop_complete (revealFuel b) b _ hb1 hfuel (x.toNat, y.toNat)
        (List.mem_singleton.mpr rfl) (hallflag y.toNat x.toNat htyh htxw)
    have hclosure := revealLoop_closure (revealFuel b) b b _ hb1 hfuel (cascadeInv_init b _)
    obtain ⟨hW, hH, hfields⟩ := revealLoop_frame (revealFuel b) b [(x.toNat, y.toNat)]
    have hmain : ∀ n, ∀ cx cy, cx < b.width → cy < b.height →
        (cx - x.toNat) + (x.toNat - cx) + (cy - y.toNat) + (y.toNat - cy) ≤ n →
        ((revealLoop (revealFuel b) b [(x.toNat, y.toNat)]).grid cy cx).is_revealed = true := by
      intro n
      induction n with
      | zero =>
        intro cx cy hcx hcy hd
        have hx : cx = x.toNat := by omega
        have hy : cy = y.toNat := by omega
        subst hx
        subst hy
        exact htarget
      | succ n ihn =>
        intro cx cy hcx hcy hd
        by_cases hle : (cx - x.toNat) + (x.toNat - cx) + (cy - y.toNat) + (y.toNat - cy) ≤ n
        · exact ihn cx cy hcx hcy hle
        · have hex : ∃ cx' cy', cx' < b.width ∧ cy' < b.height ∧
              (cx' - x.toNat) + (x.toNat - cx') + (cy' - y.toNat) + (y.toNat - cy') ≤ n ∧
              ∃ i j : Int, (i = -1 ∨ i = 0 ∨ i = 1) ∧ (j = -1 ∨ j = 0 ∨ j = 1) ∧
                ¬(i = 0 ∧ j = 0) ∧ (cx' : Int) + j = (cx : Int) ∧ (cy' : Int) + i = (cy : Int) := by
            rcases Nat.lt_trichotomy cx x.toNat with hcmp1 | hcmp1 | hcmp1 <;>
              rcases Nat.lt_trichotomy cy y.toNat with hcmp2 | hcmp2 | hcmp2
            · exact ⟨cx + 1, cy + 1, by omega, by omega, by omega, -1, -1,
                Or.inl rfl, Or.inl rfl, by decide, by omega, by omega⟩
            · exact ⟨cx + 1, cy, by omega, by omega, by omega, 0, -1,
                Or.inr (Or.inl rfl), Or.inl rfl, by decide, by omega, by omega⟩
            · exact ⟨cx + 1, cy - 1, by omega, by omega, by omega, 1, -1,
                Or.inr (Or.inr rfl), Or.inl rfl, by decide, by omega, by omega⟩
            · exact ⟨cx, cy + 1, by omega, by omega, by omega, -1, 0,
                Or.inl rfl, Or.inr (Or.inl rfl), by decide, by omega, by omega⟩
            · exact absurd (show (cx - x.toNat) + (x.toNat - cx) + (cy - y.toNat) +
                (y.toNat - cy) ≤ n by omega) hle
            · exact ⟨cx, cy - 1, by omega, by omega, by omega, 1, 0,
                Or.inr (Or.inr rfl), Or.inr (Or.inl rfl), by decide, by omega, by omega⟩
            · exact ⟨cx - 1, cy + 1, by omega, by omega, by omega, -1, 1,
                Or.inl rfl, Or.inr (Or.inr rfl), by decide, by omega, by omega⟩
            · exact ⟨cx - 1, cy, by omega, by omega, by omega, 0, 1,
                Or.inr (Or.inl rfl), Or.inr (Or.inr rfl), by decide, by omega, by omega⟩
            · exact ⟨cx - 1, cy - 1, by omega, by omega, by omega, 1, 1,
                Or.inr (Or.inr rfl), Or.inr (Or.inr rfl), by decide, by omega, by omega⟩
          obtain ⟨cx', cy', hcx', hcy', hd', i, j, hi, hj, hnz, hxeq, hyeq⟩ := hex
          have hij8 := offsets8_mem i j hi hj hnz
          have hprev := ihn cx' cy' hcx' hcy' hd'
          have hres := hclosure cx' cy' (by rw [hW]; exact hcx') (by rw [hH]; exact hcy')
            (hallrev cy' cx' hcy' hcx')
            hprev
            (by rw [(hfields cy' cx').1]; exact hallmine cy' cx' hcy' hcx')
            (by rw [(hfields cy' cx').2.2]; exact hnm0 cy' cx' hcy' hcx')
            (i, j) hij8
            (by show (0 : Int) ≤ (cx' : Int) + j; omega)
            (by rw [hW]; show (cx' : Int) + j < (b.width : Int); omega)
            (by show (0 : Int) ≤ (cy' : Int) + i; omega)
            (by rw [hH]; show (cy' : Int) + i < (b.height : Int); omega)
          have ec1 : (((cx' : Nat) : Int) + (i, j).2).toNat = cx := by
            show ((cx' : Int) + j).toNat = cx
            omega
          have ec2 : (((cy' : Nat) : Int) + (i, j).1).toNat = cy := by
            show ((cy' : Int) + i).toNat = cy
            omega
          rcases hres with h | h | h
          · rw [ec2, ec1] at h
            exact h
          · rw [ec2, ec1] at h
            rw [(hfields cy cx).2.1, hallflag cy cx hcy hcx] at h
            cases h
          · cases h
    intro cx cy hcx hcy
    rw [hrw]
    exact hmain ((cx - x.toNat) + (x.toNat - cx) + (cy - y.toNat) + (y.toNat - cy))
      cx cy hcx hcy (le_refl _)

/-- Concrete instantiation of `C1_zero_cascade` on an empty 2×2 board:
revealing the corner reveals the clicked cell and the far corner. -/
theorem C1_zero_cascade_witness :
    ((reveal_tile (create_board 2 2) 0 0).grid 0 0).is_revealed = true ∧
    ((reveal_tile (create_board 2 2) 0 0).grid 1 1).is_revealed = true :=
  ⟨(C1_zero_cascade.1 (create_board 2 2) 0 0 (by decide) (by decide) (by decide) (by decide)
      (by decide) (by decide) (by decide) (by decide) (by decide)).1,
   C1_zero_cascade.2 (create_board 2 2) 0 0 (by decide)
      (by intro cy cx _ _; exact ⟨rfl, rfl, rfl⟩) (by decide) (by decide)
      (by decide) (by decide) 1 1 (by decide) (by decide)⟩

-- --- C3: correctness of the stored neighbor counts ---

/-- Modelled from the claim wording (refinement reference): the exact number
of mine cells among the up-to-8 orthogonally and diagonally adjacent
in-bounds neighbors of `(x, y)`, clipped at the grid edges. -/
def neighborMineCount (b : Board) (x y : Nat) : Nat :=
  offsets8.foldl (fun count ij =>
    let ny : Int := (y : Int) + ij.1
    let nx : Int := (x : Int) + ij.2
    if 0 ≤ ny ∧ ny < (b.height : Int) ∧ 0 ≤ nx ∧ nx < (b.width : Int) ∧
        (b.grid ny.toNat nx.toNat).is_mine = true
    then count + 1 else count) 0

/-- For a non-mine cell the source loop over all nine offsets computes the
same value as the eight-neighbor specification count: the center offset
contributes nothing. -/
theorem countAdjacentMines_eq_spec (b : Board) (x y : Nat)
    (hm : (b.grid y x).is_mine = false) :
    countAdjacentMines b x y = neighborMineCount b x y := by
  have hc : ¬(0 ≤ (y : Int) + 0 ∧ (y : Int) + 0 < (b.height : Int) ∧
      0 ≤ (x : Int) + 0 ∧ (x : Int) + 0 < (b.width : Int) ∧
      (b.grid ((y : Int) + 0).toNat ((x : Int) + 0).toNat).is_mine = true) := by
    rintro ⟨-, -, -, -, h5⟩
    have e1 : ((y : Int) + 0).toNat = y := by omega
    have e2 : ((x : Int) + 0).toNat = x := by omega
    rw [e1, e2, hm] at h5
    cases h5
  simp only [countAdjacentMines, neighborMineCount, offsets9, offsets8,
    List.foldl_cons, List.foldl_nil]
  rw [if_neg hc]

theorem calcStep_width (acc : Board) (yx : Nat × Nat) :
    (calcStep acc yx).width = acc.width := by
  unfold calcStep
  split
  · rfl
  · rw [setTile_width]

theorem calcStep_height (acc : Board) (yx : Nat × Nat) :
    (calcStep acc yx).height = acc.height := by
  unfold calcStep
  split
  · rfl
  · rw [setTile_height]

theorem calcStep_fields (acc : Board) (yx : Nat × Nat) (cy cx : Nat) :
    ((calcStep acc yx).grid cy cx).is_mine = (acc.grid cy cx).is_mine ∧
    ((calcStep acc yx).grid cy cx).is_revealed = (acc.grid cy cx).is_revealed ∧
    ((calcStep acc yx).grid cy cx).is_flagged = (acc.grid cy cx).is_flagged := by
  unfold calcStep
  split
  · exact ⟨rfl, rfl, rfl⟩
  · rw [setTile_grid]
    by_cases h1 : cy = yx.1
    · subst h1
      by_cases h2 : cx = yx.2
      · subst h2
        simp [withCountTile1]
      · simp [h2]
    · simp [h1]

theorem calcStep_not_target (acc : Board) (yx p : Nat × Nat) (hne : p ≠ yx) :
    (calcStep acc yx).grid p.1 p.2 = acc.grid p.1 p.2 := by
  unfold calcStep
  split
  · rfl
  · refine setTile_grid_other acc yx.2 yx.1 _ p.1 p.2 ?_
    rintro ⟨e1, e2⟩
    exact hne (Prod.ext_iff.mpr ⟨e1, e2⟩)

theorem calcStep_target (acc : Board) (yx : Nat × Nat)
    (hm : (acc.grid yx.1 yx.2).is_mine = false) :
    (calcStep acc yx).grid yx.1 yx.2 =
      withCountTile1 (acc.grid yx.1 yx.2) (countAdjacentMines acc yx.2 yx.1) := by
  unfold calcStep
  rw [if_neg (by simp [hm]), setTile_grid_same]

/-- Full characterization of the neighbor-count fold over a duplicate-free
cell list: dimensions and the first three tile fields are untouched, every
listed non-mine cell receives its adjacent-mine count (taken on the original
board, which is legitimate because the pass never writes `is_mine`), and
unlisted cells are untouched. -/
theorem calcFold_spec :
    ∀ (L : List (Nat × Nat)) (b : Board), L.Nodup →
      (L.foldl calcStep b).width = b.width ∧
      (L.foldl calcStep b).height = b.height ∧
      (∀ cy cx,
        ((L.foldl calcStep b).grid cy cx).is_mine = (b.grid cy cx).is_mine ∧
        ((L.foldl calcStep b).grid cy cx).is_revealed = (b.grid cy cx).is_revealed ∧
        ((L.foldl calcStep b).grid cy cx).is_flagged = (b.grid cy cx).is_flagged) ∧
      (∀ p ∈ L, (b.grid p.1 p.2).is_mine = false →
        ((L.foldl calcStep b).grid p.1 p.2).neighbor_mines = countAdjacentMines b p.2 p.1) ∧
      (∀ p : Nat × Nat, p ∉ L → (L.foldl calcStep b).grid p.1 p.2 = b.grid p.1 p.2) := by
  intro L
  induction L with
  | nil =>
    intro b _
    exact ⟨rfl, rfl, fun cy cx => ⟨rfl, rfl, rfl⟩,
      fun p hp _ => absurd hp (List.not_mem_nil p), fun p _ => rfl⟩
  | cons q L ih =>
    intro b hnd
    have hqL : q ∉ L := (List.nodup_cons.mp hnd).1
    have hndL : L.Nodup := (List.nodup_cons.mp hnd).2
    obtain ⟨ihW, ihH, ihF, ihMem, ihOut⟩ := ih (calcStep b q) hndL
    have hcong : ∀ x y, countAdjacentMines (calcStep b q) x y = countAdjacentMines b x y :=
      fun x y => countAdjacentMines_congr b (calcStep b q)
        (calcStep_width b q) (calcStep_height b q)
        (fun cy cx => (calcStep_fields b q cy cx).1) x y
    refine ⟨?_, ?_, ?_, ?_, ?_⟩
    · rw [List.foldl_cons, ihW, calcStep_width]
    · rw [List.foldl_cons, ihH, calcStep_height]
    · intro cy cx
      refine ⟨?_, ?_, ?_⟩
      · rw [List.foldl_cons, (ihF cy cx).1, (calcStep_fields b q cy cx).1]
      · rw [List.foldl_cons, (ihF cy cx).2.1, (calcStep_fields b q cy cx).2.1]
      · rw [List.foldl_cons, (ihF cy cx).2.2, (calcStep_fields b q cy cx).2.2]
    · intro p hp hm
      rw [List.foldl_cons]
      rcases List.mem_cons.mp hp with rfl | hp'
      · rw [ihOut p hqL, calcStep_target b p hm]
        rfl
      · have hm1 : ((calcStep b q).grid p.1 p.2).is_mine = false := by
          rw [(calcStep_fields b q p.1 p.2).1]
          exact hm
        rw [ihMem p hp' hm1, hcong]
    · intro p hp
      have hpq : p ≠ q := fun e => hp (e ▸ List.mem_cons_self q L)
      have hpL : p ∉ L := fun h => hp (List.mem_cons_of_mem _ h)
      rw [List.foldl_cons, ihOut p hpL, calcStep_not_target b q p hpq]

theorem allCells_nodup (b : Board) : (allCells b).Nodup :=
  (List.nodup_range b.height).product (List.nodup_range b.width)

/-- C3: after `calculate_neighbor_mines`, every in-bounds non-mine cell
stores exactly the number of mine cells among its up-to-8 adjacent in-bounds
neighbors, clipped at the grid edges. -/
theorem C3_neighbor_counts_exact :
    ∀ (b : Board) (cy cx : Nat), cy < b.height → cx < b.width →
      (b.grid cy cx).is_mine = false →
      ((calculate_neighbor_mines b).grid cy cx).neighbor_mines = neighborMineCount b cx cy := by
  intro b cy cx hcy hcx hm
  obtain ⟨-, -, -, hMem, -⟩ := calcFold_spec (allCells b) b (allCells_nodup b)
  have hmem : ((cy, cx) : Nat × Nat) ∈ allCells b := by
    show (cy, cx) ∈ (List.range b.height) ×ˢ (List.range b.width)
    rw [List.mem_product]
    exact ⟨List.mem_range.mpr hcy, List.mem_range.mpr hcx⟩
  have hval := hMem (cy, cx) hmem hm
  unfold calculate_neighbor_mines
  rw [hval, countAdjacentMines_eq_spec b cx cy hm]

/-- Concrete instantiation of `C3_neighbor_counts_exact` on the 3×3 layout of
the specification (mines at the two opposite corners): the center cell stores
exactly 2. -/
theorem C3_neighbor_counts_exact_witness :
    ((setTile (setTile (create_board 3 3) 0 0 (mineTile1 defaultTile)) 2 2
      (mineTile1 defaultTile)).grid 1 1).is_mine = false ∧
    ((calculate_neighbor_mines (setTile (setTile (create_board 3 3) 0 0 (mineTile1 defaultTile))
        2 2 (mineTile1 defaultTile))).grid 1 1).neighbor_mines =
      neighborMineCount (setTile (setTile (create_board 3 3) 0 0 (mineTile1 defaultTile)) 2 2
        (mineTile1 defaultTile)) 1 1 ∧
    neighborMineCount (setTile (setTile (create_board 3 3) 0 0 (mineTile1 defaultTile)) 2 2
      (mineTile1 defaultTile)) 1 1 = 2 :=
  ⟨by decide,
   C3_neighbor_counts_exact _ 1 1 (by decide) (by decide) (by decide),
   by decide⟩

-- --- C2 and C9: mine placement ---

theorem countMines_setMine (b : Board) (x y : Nat) (hx : x < b.width) (hy : y < b.height)
    (h : (b.grid y x).is_mine = false) :
    countMines (setTile b x y (mineTile1 (b.grid y x))) = countMines b + 1 := by
  have hnm : ((y, x) : Nat × Nat) ∉
      ((Finset.range b.height) ×ˢ (Finset.range b.width)).filter
        (fun yx => (b.grid yx.1 yx.2).is_mine = true) := by
    simp [Finset.mem_filter, h]
  have hfe :
      ((Finset.range b.height) ×ˢ (Finset.range b.width)).filter
        (fun yx => ((setTile b x y (mineTile1 (b.grid y x))).grid yx.1 yx.2).is_mine = true) =
      insert ((y, x) : Nat × Nat)
        (((Finset.range b.height) ×ˢ (Finset.range b.width)).filter
          (fun yx => (b.grid yx.1 yx.2).is_mine = true)) := by
    ext p
    obtain ⟨p1, p2⟩ := p
    simp only [Finset.mem_filter, Finset.mem_insert, Finset.mem_product, Finset.mem_range,
      setTile_grid, Prod.mk.injEq]
    by_cases h1 : p1 = y
    · subst h1
      by_cases h2 : p2 = x
      · subst h2
        simp [mineTile1, hy, hx]
      · simp [h2]
    · simp [h1]
  unfold countMines
  rw [setTile_width, setTile_height, hfe, Finset.card_insert_of_not_mem hnm]

theorem countMines_eq_zero (b : Board)
    (hall : ∀ cy cx, cy < b.height → cx < b.width → (b.grid cy cx).is_mine = false) :
    countMines b = 0 := by
  unfold countMines
  rw [Finset.card_eq_zero]
  ext p
  obtain ⟨p1, p2⟩ := p
  simp only [Finset.mem_filter, Finset.mem_product, Finset.mem_range, Finset.not_mem_empty,
    iff_false, not_and]
  intro hmem
  rw [hall p1 p2 hmem.1 hmem.2]
  simp

/-- Loop invariant of `place_mines_loop`: on success, the number of mines on
the result exceeds the starting count by exactly the number of mines still to
be placed. -/
theorem place_mines_loop_count :
    ∀ (fuel num : Nat) (first : Nat × Nat) (rand : Nat → Nat × Nat)
      (b : Board) (placed idx : Nat) (b' : Board),
      (∀ n, (rand n).1 < b.width ∧ (rand n).2 < b.height) →
      place_mines_loop num first rand fuel b placed idx = some b' →
      countMines b' = countMines b + (num - placed) := by
  intro fuel
  induction fuel with
  | zero =>
    intro num first rand b placed idx b' _ hres
    simp only [place_mines_loop] at hres
    split at hres
    · rename_i hle
      obtain rfl := Option.some.injEq _ _ |>.mp hres
      omega
    · cases hres
  | succ fuel ih =>
    intro num first rand b placed idx b' hrand hres
    simp only [place_mines_loop] at hres
    split at hres
    · rename_i hle
      obtain rfl := Option.some.injEq _ _ |>.mp hres
      omega
    · rename_i hgt
      split at hres
      · rename_i hcond
        have hx := (hrand idx).1
        have hy := (hrand idx).2
        have hcnt := countMines_setMine b (rand idx).1 (rand idx).2 hx hy hcond.2
        have hrand2 : ∀ n, (rand n).1 <
            (setTile b (rand idx).1 (rand idx).2 (mineTile1 (b.grid (rand idx).2 (rand idx).1))).width ∧
            (rand n).2 <
            (setTile b (rand idx).1 (rand idx).2 (mineTile1 (b.grid (rand idx).2 (rand idx).1))).height := by
          intro n
          rw [setTile_width, setTile_height]
          exact hrand n
        have := ih num first rand _ (placed + 1) (idx + 1) b' hrand2 hres
        rw [this, hcnt]
        omega
      · have := ih num first rand b placed (idx + 1) b' hrand hres
        rw [this]
  
/-- On success the protected cell keeps its initial non-mine status. -/
theorem place_mines_loop_protected :
    ∀ (fuel num : Nat) (first : Nat × Nat) (rand : Nat → Nat × Nat)
      (b : Board) (placed idx : Nat) (b' : Board),
      place_mines_loop num first rand fuel b placed idx = some b' →
      (b.grid first.2 first.1).is_mine = false →
      (b'.grid first.2 first.1).is_mine = false := by
  intro fuel
  induction fuel with
  | zero =>
    intro num first rand b placed idx b' hres hini
    simp only [place_mines_loop] at hres
    split at hres
    · obtain rfl := Option.some.injEq _ _ |>.mp hres
      exact hini
    · cases hres
  | succ fuel ih =>
    intro num first rand b placed idx b' hres hini
    simp only [place_mines_loop] at hres
    split at hres
    · obtain rfl := Option.some.injEq _ _ |>.mp hres
      exact hini
    · split at hres
      · rename_i hcond
        refine ih num first rand _ (placed + 1) (idx + 1) b' hres ?_
        rw [setTile_grid_other]
        · exact hini
        · rintro ⟨e1, e2⟩
          exact hcond.1 (Prod.ext_iff.mpr ⟨e2, e1⟩).symm
      · exact ih num first rand b placed (idx + 1) b' hres hini

/-- C2: starting from a board with no in-bounds mines (as produced by
`create_board`), for every `mine_count < width * height`, every in-bounds
protected cell and every in-bounds sample stream, whenever `place_mines`
completes it has set exactly `mine_count` tiles to `is_mine = true` and the
protected cell is not one of them. -/
theorem C2_place_mines_exact :
    ∀ (b : Board) (num : Nat) (first : Nat × Nat) (rand : Nat → Nat × Nat)
      (fuel : Nat) (b' : Board),
      (∀ cy cx, cy < b.height → cx < b.width → (b.grid cy cx).is_mine = false) →
      num < b.width * b.height →
      first.1 < b.width → first.2 < b.height →
      (∀ n, (rand n).1 < b.width ∧ (rand n).2 < b.height) →
      place_mines b num first rand fuel = some b' →
      countMines b' = num ∧ (b'.grid first.2 first.1).is_mine = false := by
  intro b num first rand fuel b' hall hnum hf1 hf2 hrand hres
  unfold place_mines at hres
  constructor
  · have hc := place_mines_loop_count fuel num first rand b 0 0 b' hrand hres
    rw [hc, countMines_eq_zero b hall]
    omega
  · exact place_mines_loop_protected fuel num first rand b 0 0 b' hres
      (hall first.2 first.1 hf2 hf1)

/-- The sample stream used by the concrete `place_mines` witnesses: walks the
2×2 grid cell by cell. -/
def sampleStream : Nat → Nat × Nat := fun n => (n % 2, (n / 2) % 2)

/-- Concrete instantiation of `C2_place_mines_exact`: 2 mines on a fresh 2×2
board with protected cell (0, 0). -/
theorem C2_place_mines_exact_witness :
    2 < (create_board 2 2).width * (create_board 2 2).height ∧
    countMines ((place_mines (create_board 2 2) 2 (0, 0) sampleStream 8).getD
      (create_board 2 2)) = 2 ∧
    (((place_mines (create_board 2 2) 2 (0, 0) sampleStream 8).getD
      (create_board 2 2)).grid 0 0).is_mine = false :=
  ⟨by decide,
   (C2_place_mines_exact (create_board 2 2) 2 (0, 0) sampleStream 8 _
     (by intro cy cx _ _; rfl) (by decide) (by decide) (by decide)
     (by intro n; exact ⟨Nat.mod_lt _ (by omega), Nat.mod_lt _ (by omega)⟩) rfl).1,
   (C2_place_mines_exact (create_board 2 2) 2 (0, 0) sampleStream 8 _
     (by intro cy cx _ _; rfl) (by decide) (by decide) (by decide)
     (by intro n; exact ⟨Nat.mod_lt _ (by omega), Nat.mod_lt _ (by omega)⟩) rfl).2⟩

-- --- C9: termination of mine placement ---

/-- Fuel sufficiency for `place_mines_loop`: if the next `fuel` samples
contain at least `num - placed` distinct values that are neither the
protected cell nor already mined, the loop finishes within that fuel. -/
theorem place_mines_loop_fuel :
    ∀ (fuel num : Nat) (first : Nat × Nat) (rand : Nat → Nat × Nat)
      (b : Board) (placed idx : Nat),
      num - placed ≤ (((Finset.Ico idx (idx + fuel)).image rand).filter
        (fun c => c ≠ first ∧ (b.grid c.2 c.1).is_mine = false)).card →
      (place_mines_loop num first rand fuel b placed idx).isSome = true := by
  intro fuel
  induction fuel with
  | zero =>
    intro num first rand b placed idx hcard
    simp only [Nat.add_zero, Finset.Ico_self, Finset.image_empty, Finset.filter_empty,
      Finset.card_empty] at hcard
    simp only [place_mines_loop]
    rw [if_pos (by omega)]
    rfl
  | succ fuel ih =>
    intro num first rand b placed idx hcard
    simp only [place_mines_loop]
    split
    · rfl
    · rename_i hgt
      split
      · rename_i hcond
        refine ih num first rand _ (placed + 1) (idx + 1) ?_
        have hsub :
            (((Finset.Ico idx (idx + (fuel + 1))).image rand).filter
              (fun c => c ≠ first ∧ (b.grid c.2 c.1).is_mine = false)) ⊆
            insert (rand idx)
              (((Finset.Ico (idx + 1) (idx + 1 + fuel)).image rand).filter
                (fun c => c ≠ first ∧
                  ((setTile b (rand idx).1 (rand idx).2
                    (mineTile1 (b.grid (rand idx).2 (rand idx).1))).grid c.2 c.1).is_mine =
                    false)) := by
          intro d hd
          rw [Finset.mem_filter, Finset.mem_image] at hd
          obtain ⟨⟨k, hk, hdk⟩, hdf, hdm⟩ := hd
          rw [Finset.mem_insert]
          by_cases hdc : d = rand idx
          · exact Or.inl hdc
          · right
            rw [Finset.mem_filter, Finset.mem_image]
            have hkne : k ≠ idx := by
              rintro rfl
              exact hdc hdk.symm
            rw [Finset.mem_Ico] at hk
            refine ⟨⟨k, by rw [Finset.mem_Ico]; omega, hdk⟩, hdf, ?_⟩
            rw [setTile_grid_other]
            · exact hdm
            · rintro ⟨e1, e2⟩
              exact hdc (Prod.ext_iff.mpr ⟨e2, e1⟩)
        have hle := Finset.card_le_card hsub
        have hins := Finset.card_insert_le (rand idx)
          (((Finset.Ico (idx + 1) (idx + 1 + fuel)).image rand).filter
            (fun c => c ≠ first ∧
              ((setTile b (rand idx).1 (rand idx).2
                (mineTile1 (b.grid (rand idx).2 (rand idx).1))).grid c.2 c.1).is_mine = false))
        omega
      · rename_i hcond
        refine ih num first rand b placed (idx + 1) ?_
        have hsub :
            (((Finset.Ico idx (idx + (fuel + 1))).image rand).filter
              (fun c => c ≠ first ∧ (b.grid c.2 c.1).is_mine = false)) ⊆
            (((Finset.Ico (idx + 1) (idx + 1 + fuel)).image rand).filter
              (fun c => c ≠ first ∧ (b.grid c.2 c.1).is_mine = false)) := by
          intro d hd
          rw [Finset.mem_filter, Finset.mem_image] at hd
          obtain ⟨⟨k, hk, hdk⟩, hdf, hdm⟩ := hd
          have hkne : k ≠ idx := by
            rintro rfl
            rw [hdk] at hcond
            exact hcond ⟨hdf, hdm⟩
          rw [Finset.mem_Ico] at hk
          rw [Finset.mem_filter, Finset.mem_image]
          exact ⟨⟨k, by rw [Finset.mem_Ico]; omega, hdk⟩, hdf, hdm⟩
        have hle := Finset.card_le_card hsub
        omega

/-- Auxiliary: on the constant stream that always returns the protected cell,
the placement loop makes no progress whatever the fuel. -/
theorem place_mines_const_stream_none :
    ∀ (fuel idx : Nat),
      place_mines_loop 1 (0, 0) (fun _ => (0, 0)) fuel (create_board 2 1) 0 idx = none := by
  intro fuel
  induction fuel with
  | zero =>
    intro idx
    simp [place_mines_loop]
  | succ fuel ih =>
    intro idx
    simp only [place_mines_loop]
    rw [if_neg (by omega), if_neg (by simp)]
    exact ih (idx + 1)

/-- Counterexample to C9 as stated: a 2×1 board with one mine to place
satisfies `mine_count < width*height`, yet on the sample sequence that keeps
drawing the protected cell the placement loop never terminates. -/
theorem C9_place_mines_counterexample :
    1 < (create_board 2 1).width * (create_board 2 1).height ∧
    ¬PlaceMinesTerminates (create_board 2 1) 1 (0, 0) (fun _ => (0, 0)) := by
  refine ⟨by decide, ?_⟩
  rintro ⟨fuel, hf⟩
  unfold place_mines at hf
  rw [place_mines_const_stream_none fuel 0] at hf
  cases hf

/-- C9 (amended): `place_mines` terminates on exactly the sample sequences
that supply enough distinct usable cells; concretely, if the first `N`
samples contain at least `mine_count` distinct values other than the
protected cell that are not already mined, the loop finishes within `N`
iterations. -/
theorem C9_place_mines_terminates_amended :
    ∀ (b : Board) (num : Nat) (first : Nat × Nat) (rand : Nat → Nat × Nat) (N : Nat),
      num ≤ (((Finset.range N).image rand).filter
        (fun c => c ≠ first ∧ (b.grid c.2 c.1).is_mine = false)).card →
      (place_mines b num first rand N).isSome = true := by
  intro b num first rand N hcard
  unfold place_mines
  refine place_mines_loop_fuel N num first rand b 0 0 ?_
  rw [Nat.zero_add, ← Finset.range_eq_Ico]
  simpa using hcard

/-- Concrete instantiation of `C9_place_mines_terminates_amended` on a fresh
2×2 board: the cell-walking stream supplies enough distinct cells within 8
samples. -/
theorem C9_place_mines_terminates_amended_witness :
    2 ≤ (((Finset.range 8).image sampleStream).filter
      (fun c => c ≠ ((0, 0) : Nat × Nat) ∧
        ((create_board 2 2).grid c.2 c.1).is_mine = false)).card ∧
    (place_mines (create_board 2 2) 2 (0, 0) sampleStream 8).isSome = true :=
  ⟨by decide,
   C9_place_mines_terminates_amended (create_board 2 2) 2 (0, 0) sampleStream 8 (by decide)⟩

-- --- Session-level lemmas for the loss and victory claims ---

theorem reveal_tile_frame (b : Board) (x y : Int) :
    (reveal_tile b x y).width = b.width ∧ (reveal_tile b x y).height = b.height ∧
    ∀ cy cx,
      ((reveal_tile b x y).grid cy cx).is_mine = (b.grid cy cx).is_mine ∧
      ((reveal_tile b x y).grid cy cx).is_flagged = (b.grid cy cx).is_flagged ∧
      ((reveal_tile b x y).grid cy cx).neighbor_mines = (b.grid cy cx).neighbor_mines := by
  unfold reveal_tile
  split
  · exact revealLoop_frame (revealFuel b) b [(x.toNat, y.toNat)]
  · exact ⟨rfl, rfl, fun cy cx => ⟨rfl, rfl, rfl⟩⟩

/-- Revealing a mine reveals only the clicked tile: the loop pops the target,
marks it revealed, sees the mine and stops without pushing neighbors. -/
theorem reveal_tile_mine_target (b : Board) (x y : Int)
    (hmine : (b.grid y.toNat x.toNat).is_mine = true) :
    ∀ cy cx, ¬(cy = y.toNat ∧ cx = x.toNat) →
      (reveal_tile b x y).grid cy cx = b.grid cy cx := by
  intro cy cx hne
  unfold reveal_tile
  split
  · show (revealLoop (9 * (b.width * b.height) + 1) b [(x.toNat, y.toNat)]).grid cy cx =
      b.grid cy cx
    simp only [revealLoop]
    split
    · rfl
    · exact setTile_grid_other b x.toNat y.toNat _ cy cx hne
  · rfl

theorem reveal_all_mines_spec (b : Board) (cy cx : Nat) :
    (reveal_all_mines b).grid cy cx =
      if cy < b.height ∧ cx < b.width ∧ (b.grid cy cx).is_mine = true
      then revealTile1 (b.grid cy cx) else b.grid cy cx := rfl

theorem check_victory_iff (b : Board) :
    check_victory b = true ↔
      ∀ cy cx, cy < b.height → cx < b.width →
        (b.grid cy cx).is_mine = false → (b.grid cy cx).is_revealed = true := by
  unfold check_victory
  simp only [List.all_eq_true, List.mem_range, Bool.or_eq_true]
  constructor
  · intro h cy cx hy hx hm
    rcases h cy hy cx hx with hc | hc
    · rw [hm] at hc
      cases hc
    · exact hc
  · intro h y hy x hx
    by_cases hm : (b.grid y x).is_mine = true
    · exact Or.inl hm
    · exact Or.inr (h y x hy hx (by simpa using hm))

/-- The left-click path when the clicked tile ends up being an unflagged
mine, on an armed, non-terminal session: transition to the lost state and
reveal all mines. -/
theorem applyReveal_mine_eq (arm : Board → Nat × Nat → Board) (s : GameState) (x y : Int)
    (hover : s.game_over = false) (hwon : s.game_won = false)
    (hfirst : s.first_click = false)
    (hbounds : 0 ≤ x ∧ x < (s.board.width : Int) ∧ 0 ≤ y ∧ y < (s.board.height : Int))
    (hm : ((reveal_tile s.board x y).grid y.toNat x.toNat).is_mine = true)
    (hf : ((reveal_tile s.board x y).grid y.toNat x.toNat).is_flagged = false) :
    applyReveal arm s x y =
      { s with board := reveal_all_mines (reveal_tile s.board x y), game_over := true } := by
  have hfc : handle_first_click arm s x.toNat y.toNat = s := by
    unfold handle_first_click
    rw [hfirst]
    simp
  simp only [applyReveal]
  rw [if_pos ⟨hover, hwon⟩, if_pos hbounds, hfc, if_pos ⟨hm, hf⟩]

/-- The left-click path when the clicked tile does not trigger the loss
check, on an armed, non-terminal session: the board becomes the revealed
board, nothing else changes. -/
theorem applyReveal_safe_eq (arm : Board → Nat × Nat → Board) (s : GameState) (x y : Int)
    (hover : s.game_over = false) (hwon : s.game_won = false)
    (hfirst : s.first_click = false)
    (hbounds : 0 ≤ x ∧ x < (s.board.width : Int) ∧ 0 ≤ y ∧ y < (s.board.height : Int))
    (hnm : ¬(((reveal_tile s.board x y).grid y.toNat x.toNat).is_mine = true ∧
      ((reveal_tile s.board x y).grid y.toNat x.toNat).is_flagged = false)) :
    applyReveal arm s x y = { s with board := reveal_tile s.board x y } := by
  have hfc : handle_first_click arm s x.toNat y.toNat = s := by
    unfold handle_first_click
    rw [hfirst]
    simp
  simp only [applyReveal]
  rw [if_pos ⟨hover, hwon⟩, if_pos hbounds, hfc, if_neg hnm]

/-- C4: on an armed, in-progress session, a reveal action on an in-bounds,
unflagged mine tile sets `game_over`, reveals every mine on the board, and
does not force-reveal any flagged non-mine tile. -/
theorem C4_mine_reveal_loses :
    ∀ (arm : Board → Nat × Nat → Board) (s : GameState) (x y : Int),
      s.game_over = false → s.game_won = false → s.first_click = false →
      0 ≤ x → x < (s.board.width : Int) → 0 ≤ y → y < (s.board.height : Int) →
      (s.board.grid y.toNat x.toNat).is_mine = true →
      (s.board.grid y.toNat x.toNat).is_flagged = false →
      (applyReveal arm s x y).game_over = true ∧
      (∀ cy cx, cy < s.board.height → cx < s.board.width →
        (s.board.grid cy cx).is_mine = true →
        ((applyReveal arm s x y).board.grid cy cx).is_revealed = true) ∧
      (∀ cy cx, (s.board.grid cy cx).is_mine = false →
        (s.board.grid cy cx).is_flagged = true →
        ((applyReveal arm s x y).board.grid cy cx).is_revealed =
          (s.board.grid cy cx).is_revealed) := by
  intro arm s x y hover hwon hfirst hx0 hxw hy0 hyh hmine hflag
  obtain ⟨hW, hH, hfr⟩ := reveal_tile_frame s.board x y
  have hm1 : ((reveal_tile s.board x y).grid y.toNat x.toNat).is_mine = true := by
    rw [(hfr y.toNat x.toNat).1]
    exact hmine
  have hf1 : ((reveal_tile s.board x y).grid y.toNat x.toNat).is_flagged = false := by
    rw [(hfr y.toNat x.toNat).2.1]
    exact hflag
  rw [applyReveal_mine_eq arm s x y hover hwon hfirst ⟨hx0, hxw, hy0, hyh⟩ hm1 hf1]
  refine ⟨rfl, ?_, ?_⟩
  · intro cy cx hcy hcx hcm
    show ((reveal_all_mines (reveal_tile s.board x y)).grid cy cx).is_revealed = true
    rw [reveal_all_mines_spec, if_pos ⟨by rw [hH]; exact hcy, by rw [hW]; exact hcx,
      by rw [(hfr cy cx).1]; exact hcm⟩]
    rfl
  · intro cy cx hcm hcf
    show ((reveal_all_mines (reveal_tile s.board x y)).grid cy cx).is_revealed =
      (s.board.grid cy cx).is_revealed
    have hne : ¬(cy = y.toNat ∧ cx = x.toNat) := by
      rintro ⟨rfl, rfl⟩
      rw [hmine] at hcm
      cases hcm
    have hcond : ¬(cy < (reveal_tile s.board x y).height ∧
        cx < (reveal_tile s.board x y).width ∧
        ((reveal_tile s.board x y).grid cy cx).is_mine = true) := by
      rintro ⟨-, -, hc⟩
      rw [(hfr cy cx).1, hcm] at hc
      cases hc
    rw [reveal_all_mines_spec, if_neg hcond]
    rw [reveal_tile_mine_target s.board x y hmine cy cx hne]

/-- Concrete instantiation of `C4_mine_reveal_loses` on an armed 2×1 session
with a mine at column 1: clicking the mine loses and the mine is shown. -/
theorem C4_mine_reveal_loses_witness :
    (applyReveal (fun b _ => b)
      ⟨calculate_neighbor_mines (setTile (create_board 2 1) 1 0 (mineTile1 defaultTile)),
        false, false, false⟩ 1 0).game_over = true ∧
    ((applyReveal (fun b _ => b)
      ⟨calculate_neighbor_mines (setTile (create_board 2 1) 1 0 (mineTile1 defaultTile)),
        false, false, false⟩ 1 0).board.grid 0 1).is_revealed = true :=
  ⟨(C4_mine_reveal_loses (fun b _ => b) _ 1 0 rfl rfl rfl (by decide) (by decide) (by decide)
      (by decide) (by decide) (by decide)).1,
   (C4_mine_reveal_loses (fun b _ => b) _ 1 0 rfl rfl rfl (by decide) (by decide) (by decide)
      (by decide) (by decide) (by decide)).2.1 0 1 (by decide) (by decide) (by decide)⟩

/-- C5: on an armed, in-progress session, after revealing an in-bounds
non-mine tile the session is marked won by the update step exactly when every
non-mine tile of the resulting board is revealed. -/
theorem C5_won_iff_all_safe_revealed :
    ∀ (arm : Board → Nat × Nat → Board) (s : GameState) (x y : Int),
      s.game_over = false → s.game_won = false → s.first_click = false →
      0 ≤ x → x < (s.board.width : Int) → 0 ≤ y → y < (s.board.height : Int) →
      (s.board.grid y.toNat x.toNat).is_mine = false →
      ((updateStep (applyReveal arm s x y)).game_won = true ↔
        (∀ cy cx, cy < (applyReveal arm s x y).board.height →
          cx < (applyReveal arm s x y).board.width →
          ((applyReveal arm s x y).board.grid cy cx).is_mine = false →
          ((applyReveal arm s x y).board.grid cy cx).is_revealed = true)) := by
  intro arm s x y hover hwon hfirst hx0 hxw hy0 hyh hmine
  obtain ⟨hW, hH, hfr⟩ := reveal_tile_frame s.board x y
  have hm1 : ¬(((reveal_tile s.board x y).grid y.toNat x.toNat).is_mine = true ∧
      ((reveal_tile s.board x y).grid y.toNat x.toNat).is_flagged = false) := by
    rintro ⟨hc, -⟩
    rw [(hfr y.toNat x.toNat).1, hmine] at hc
    cases hc
  rw [applyReveal_safe_eq arm s x y hover hwon hfirst ⟨hx0, hxw, hy0, hyh⟩ hm1]
  have hups : updateStep { s with board := reveal_tile s.board x y } =
      if check_victory (reveal_tile s.board x y) = true
      then { s with board := reveal_tile s.board x y, game_won := true }
      else { s with board := reveal_tile s.board x y } := by
    unfold updateStep
    rw [if_pos ⟨hover, hfirst, hwon⟩]
  rw [hups]
  by_cases hcv : check_victory (reveal_tile s.board x y) = true
  · rw [if_pos hcv]
    exact iff_of_true rfl ((check_victory_iff _).mp hcv)
  · rw [if_neg hcv]
    refine iff_of_false ?_ ?_
    · show s.game_won = true → False
      rw [hwon]
      intro hc
      cases hc
    · intro hr
      exact hcv ((check_victory_iff _).mpr hr)

/-- Concrete instantiation of `C5_won_iff_all_safe_revealed` on the 2×1 board
with one mine from the specification: revealing the single safe cell makes
the win condition hold, and the update step marks the session won. -/
theorem C5_won_iff_all_safe_revealed_witness :
    ((updateStep (applyReveal (fun b _ => b)
      ⟨calculate_neighbor_mines (setTile (create_board 2 1) 1 0 (mineTile1 defaultTile)),
        false, false, false⟩ 0 0)).game_won = true ↔
      (∀ cy cx, cy < (applyReveal (fun b _ => b)
          ⟨calculate_neighbor_mines (setTile (create_board 2 1) 1 0 (mineTile1 defaultTile)),
            false, false, false⟩ 0 0).board.height →
        cx < (applyReveal (fun b _ => b)
          ⟨calculate_neighbor_mines (setTile (create_board 2 1) 1 0 (mineTile1 defaultTile)),
            false, false, false⟩ 0 0).board.width →
        ((applyReveal (fun b _ => b)
          ⟨calculate_neighbor_mines (setTile (create_board 2 1) 1 0 (mineTile1 defaultTile)),
            false, false, false⟩ 0 0).board.grid cy cx).is_mine = false →
        ((applyReveal (fun b _ => b)
          ⟨calculate_neighbor_mines (setTile (create_board 2 1) 1 0 (mineTile1 defaultTile)),
            false, false, false⟩ 0 0).board.grid cy cx).is_revealed = true)) ∧
    (updateStep (applyReveal (fun b _ => b)
      ⟨calculate_neighbor_mines (setTile (create_board 2 1) 1 0 (mineTile1 defaultTile)),
        false, false, false⟩ 0 0)).game_won = true :=
  ⟨C5_won_iff_all_safe_revealed (fun b _ => b) _ 0 0 rfl rfl rfl (by decide) (by decide)
      (by decide) (by decide) (by decide),
   by decide⟩

-- --- C6: revealed-and-flagged tiles ---

/-- No in-bounds tile is simultaneously revealed and flagged. -/
def NoRevealedFlag (b : Board) : Prop :=
  ∀ cy, cy < b.height → ∀ cx, cx < b.width →
    ¬((b.grid cy cx).is_revealed = true ∧ (b.grid cy cx).is_flagged = true)

instance (b : Board) : Decidable (NoRevealedFlag b) := by
  unfold NoRevealedFlag; infer_instance

theorem noRF_setReveal (b : Board) (px py : Nat)
    (h : NoRevealedFlag b) (hf : (b.grid py px).is_flagged = false) :
    NoRevealedFlag (setTile b px py (revealTile1 (b.grid py px))) := by
  intro cy hcy cx hcx
  rw [setTile_height] at hcy
  rw [setTile_width] at hcx
  rw [setTile_grid]
  by_cases h1 : cy = py
  · subst h1
    by_cases h2 : cx = px
    · subst h2
      simp [revealTile1, hf]
    · simp only [if_pos rfl, if_neg h2]
      exact h cy hcy cx hcx
  · simp only [if_neg h1]
    exact h cy hcy cx hcx

/-- The worklist loop preserves the no-revealed-and-flagged invariant: it
only reveals tiles that are not flagged. -/
theorem revealLoop_noRF (fuel : Nat) :
    ∀ (b : Board) (stack : List (Nat × Nat)),
      (∀ p ∈ stack, p.1 < b.width ∧ p.2 < b.height) →
      NoRevealedFlag b → NoRevealedFlag (revealLoop fuel b stack) := by
  induction fuel with
  | zero =>
    intro b stack _ h
    cases stack with
    | nil => exact h
    | cons p rest => exact h
  | succ fuel ih =>
    intro b stack hbounds h
    cases stack with
    | nil => exact h
    | cons q rest =>
      obtain ⟨px, py⟩ := q
      have hrest : ∀ p ∈ rest, p.1 < b.width ∧ p.2 < b.height :=
        fun p hp => hbounds p (List.mem_cons_of_mem _ hp)
      simp only [revealLoop]
      split
      · exact ih b rest hrest h
      · rename_i hcase
        push_neg at hcase
        have hflagF : (b.grid py px).is_flagged = false := by simpa using hcase.2
        have hb' := noRF_setReveal b px py h hflagF
        have hrest' : ∀ p ∈ rest,
            p.1 < (setTile b px py (revealTile1 (b.grid py px))).width ∧
            p.2 < (setTile b px py (revealTile1 (b.grid py px))).height := by
          intro p hp
          rw [setTile_width, setTile_height]
          exact hrest p hp
        split
        · exact ih _ rest hrest' hb'
        · split
          · refine ih _ _ ?_ hb'
            intro r hr
            rcases pushNeighbors_mem_inv _ px py rest r hr with hin | ⟨ij, _, c1, c2, c3, c4, _, hpr⟩
            · exact hrest' r hin
            · subst hpr
              rw [setTile_width] at c2
              rw [setTile_height] at c4
              rw [setTile_width, setTile_height]
              exact ⟨by omega, by omega⟩
          · exact ih _ rest hrest' hb'

/-- The worklist loop never reveals a flagged tile: its revealed status is
left exactly as it was. -/
theorem revealLoop_flagged_frozen (fuel : Nat) :
    ∀ (b : Board) (stack : List (Nat × Nat)) (cy cx : Nat),
      (b.grid cy cx).is_flagged = true →
      ((revealLoop fuel b stack).grid cy cx).is_revealed = (b.grid cy cx).is_revealed := by
  induction fuel with
  | zero =>
    intro b stack cy cx _
    cases stack with
    | nil => rfl
    | cons p rest => rfl
  | succ fuel ih =>
    intro b stack cy cx hflag
    cases stack with
    | nil => rfl
    | cons q rest =>
      obtain ⟨px, py⟩ := q
      simp only [revealLoop]
      split
      · exact ih b rest cy cx hflag
      · rename_i hcase
        push_neg at hcase
        have hflagF : (b.grid py px).is_flagged = false := by simpa using hcase.2
        have hne : ¬(cy = py ∧ cx = px) := by
          rintro ⟨rfl, rfl⟩
          rw [hflag] at hflagF
          cases hflagF
        have hgother := setTile_grid_other b px py (revealTile1 (b.grid py px)) cy cx hne
        have hflag' : ((setTile b px py (revealTile1 (b.grid py px))).grid cy cx).is_flagged =
            true := by rw [hgother]; exact hflag
        split
        · rw [ih _ rest cy cx hflag', hgother]
        · split
          · rw [ih _ _ cy cx hflag', hgother]
          · rw [ih _ rest cy cx hflag', hgother]

/-- C6 (amended): the normal player actions preserve the invariant — a
reveal action never reveals a flagged tile and never leaves a tile both
revealed and flagged, and a flag toggle never flags a revealed tile.  The
loss-time `reveal_all_mines` is excluded: it reveals flagged mines without
clearing their flags (see the counterexample). -/
theorem C6_no_revealed_flag_amended :
    ∀ (b : Board), NoRevealedFlag b →
      (∀ x y : Int, NoRevealedFlag (reveal_tile b x y)) ∧
      (∀ x y : Int, NoRevealedFlag (toggle_flag b x y)) ∧
      (∀ (x y : Int) (cy cx : Nat), (b.grid cy cx).is_flagged = true →
        ((reveal_tile b x y).grid cy cx).is_revealed = (b.grid cy cx).is_revealed) := by
  intro b h
  refine ⟨?_, ?_, ?_⟩
  · intro x y
    unfold reveal_tile
    split
    · rename_i hbounds
      refine revealLoop_noRF (revealFuel b) b _ ?_ h
      intro p hp
      rw [List.mem_singleton] at hp
      subst hp
      exact ⟨by omega, by omega⟩
    · exact h
  · intro x y
    unfold toggle_flag
    split
    · rename_i hbounds
      split
      · exact h
      · rename_i hrev
        intro cy hcy cx hcx
        rw [setTile_height] at hcy
        rw [setTile_width] at hcx
        rw [setTile_grid]
        by_cases h1 : cy = y.toNat
        · subst h1
          by_cases h2 : cx = x.toNat
          · subst h2
            simp only [if_pos rfl]
            rintro ⟨hc, -⟩
            simp only [flagToggleTile1] at hc
            exact hrev hc
          · simp only [if_pos rfl, if_neg h2]
            exact h _ hcy _ hcx
        · simp only [if_neg h1]
          exact h _ hcy _ hcx
    · exact h
  · intro x y cy cx hflag
    unfold reveal_tile
    split
    · exact revealLoop_flagged_frozen (revealFuel b) b _ cy cx hflag
    · rfl

/-- Concrete instantiation of `C6_no_revealed_flag_amended` on a 2×2 board
with one flagged cell. -/
theorem C6_no_revealed_flag_amended_witness :
    NoRevealedFlag (toggle_flag (create_board 2 2) 0 0) ∧
    NoRevealedFlag (reveal_tile (toggle_flag (create_board 2 2) 0 0) 1 1) ∧
    ((reveal_tile (toggle_flag (create_board 2 2) 0 0) 1 1).grid 0 0).is_revealed =
      ((toggle_flag (create_board 2 2) 0 0).grid 0 0).is_revealed :=
  ⟨by decide,
   (C6_no_revealed_flag_amended (toggle_flag (create_board 2 2) 0 0) (by decide)).1 1 1,
   (C6_no_revealed_flag_amended (toggle_flag (create_board 2 2) 0 0) (by decide)).2.2 1 1 0 0
     (by decide)⟩

/-- The resolved random outcome used by the counterexample session: two mines
at columns 0 and 2 of a 4×1 board. -/
def cexStream : Nat → Nat × Nat := fun n => (2 * (n % 2), 0)

/-- The first-click arming function of the counterexample session: runs the
actual `place_mines` on the sample stream `cexStream`. -/
def cexArm : Board → Nat × Nat → Board := fun b first => (place_mines b 2 first cexStream 2).getD b

/-- A fresh 4×1 session with two mines to be placed. -/
def cexStart : GameState := ⟨create_board 4 1, true, false, false⟩

/-- Counterexample to C6 as stated: a state reachable through the game's own
operations (flag column 0; first reveal at column 1, which runs `place_mines`
with protected cell (1, 0) and `calculate_neighbor_mines`; reveal the mine at
column 2, which sets `game_over` and runs `reveal_all_mines`) in which the
flagged mine at column 0 is simultaneously revealed and flagged. -/
theorem C6_revealed_flag_counterexample :
    ((applyReveal cexArm (applyReveal cexArm (applyFlag cexStart 0 0) 1 0) 2 0).board.grid
      0 0).is_revealed = true ∧
    ((applyReveal cexArm (applyReveal cexArm (applyFlag cexStart 0 0) 1 0) 2 0).board.grid
      0 0).is_flagged = true := by
  constructor
  · decide
  · decide
